import Mathlib

/-!
Verification development for the go-release-cycle program.

The Go source (main.go) is shallowly embedded below:
* machine integers (int64) are modelled as `Int` with explicit wrap-around
  where overflow matters,
* `time.Time` values are modelled as Unix seconds (`Int`); all the program
  does with times is subtract them, and every parsed timestamp has whole
  seconds,
* Go maps are modelled as association lists whose update and lookup both
  act on the first occurrence of a key,
* code that can panic returns `Option` (`none` = abort),
* the ambient wall clock read by the duration-assignment second pass is
  modelled as an oracle `clock : Nat → Int` giving the value of the k-th
  read.
-/

namespace GoReleaseCycle

/-! ## Characters and digit strings -/

def isDigitChar (c : Char) : Bool :=
  '0'.toNat ≤ c.toNat && c.toNat ≤ '9'.toNat

def digitVal (c : Char) : Nat :=
  c.toNat - '0'.toNat

def natOfDigitsAux : Nat → List Char → Nat
  | acc, [] => acc
  | acc, c :: l => natOfDigitsAux (10 * acc + digitVal c) l

def natOfDigits (l : List Char) : Nat :=
  natOfDigitsAux 0 l

/-- Sign handling of `strconv.ParseInt`: strip one leading `-` or `+`. -/
def parseSign (l : List Char) : Bool × List Char :=
  match l with
  | [] => (false, [])
  | c :: r =>
    if c = '-' then (true, r)
    else if c = '+' then (false, r)
    else (false, c :: r)

/-- Digits and range check of `strconv.ParseInt(_, 10, 64)`: a non-empty
run of decimal digits within the signed 64-bit range. -/
def parseIntCore (neg : Bool) (ds : List Char) : Option Int :=
  if ds = [] then none
  else if !(ds.all isDigitChar) then none
  else if neg then
    if natOfDigits ds ≤ 2 ^ 63 then some (-(natOfDigits ds : Int)) else none
  else
    if natOfDigits ds ≤ 2 ^ 63 - 1 then some ((natOfDigits ds : Int)) else none

/-- Model of Go `strconv.ParseInt(s, 10, 64)`; `none` models the error
return. -/
def parseInt64 (s : String) : Option Int :=
  match s.data with
  | [] => none
  | l => parseIntCore (parseSign l).1 (parseSign l).2

/-- Wrap an integer into the signed 64-bit range, as Go's `int` addition
does on overflow. -/
def wrap64 (n : Int) : Int :=
  (n + 2 ^ 63) % 2 ^ 64 - 2 ^ 63

/-! ## Versions and release types (main.go lines 36-50, 213-234) -/

/-- `Version` is the major and minor version number, such as "1.8". -/
abbrev Version := String

/-- `ReleaseType` is the type of release, "rc", "beta" or ".". -/
abbrev ReleaseType := String

def BetaRelease : ReleaseType := "beta"
def RCRelease : ReleaseType := "rc"
def GARelease : ReleaseType := "."

/-- First-separator split, as `strings.SplitN(s, ".", 2)` produces; `none`
when the separator is absent, in which case `parseVersion`'s `v[1]` access
panics. -/
def splitAtDot : List Char → Option (List Char × List Char)
  | [] => none
  | c :: rest =>
    if c = '.' then some ([], rest)
    else (splitAtDot rest).map (fun q => (c :: q.1, q.2))

/-- Model of `parseVersion` (main.go lines 223-234).  `none` models the
panic branches (missing separator or `strconv.ParseInt` failure). -/
def parseVersion (version : Version) : Option (Int × Int) :=
  match splitAtDot version.data with
  | none => none
  | some q =>
    match parseInt64 (String.mk q.1), parseInt64 (String.mk q.2) with
    | some maj, some mi => some (maj, mi)
    | _, _ => none

/-- `fmt.Sprintf("%d.%d", major, minor)`. -/
def formatVersion (major minor : Int) : Version :=
  s!"{major}.{minor}"

/-- Model of `nextVersion` (main.go lines 213-216); `none` models the panic
inside `parseVersion`. -/
def nextVersion (current : Version) : Option Version :=
  match parseVersion current with
  | none => none
  | some q => some (formatVersion q.1 (wrap64 (q.2 + 1)))

/-- Model of `prevVersion` (main.go lines 218-221). -/
def prevVersion (current : Version) : Option Version :=
  match parseVersion current with
  | none => none
  | some q => some (formatVersion q.1 (wrap64 (q.2 - 1)))

/-! ## The release ledger (main.go lines 52-59) -/

/-- A `Release` is the time when a release occurred plus its elapsed
duration, initially unset (zero). -/
structure Release where
  date : Int
  duration : Int
deriving DecidableEq, Repr

/-- The phase map of one version: Go `map[ReleaseType][]Release`. -/
abbrev Inner := List (ReleaseType × List Release)

/-- `Releases` holds all the releases for all versions for all release
types: Go `map[Version]map[ReleaseType][]Release`. -/
abbrev Releases := List (Version × Inner)

/-- First-occurrence association-list lookup (Go map read). -/
def alookup (k : String) : List (String × β) → Option β
  | [] => none
  | p :: l => if p.1 = k then some p.2 else alookup k l

/-- Modify the value stored at key `k` (first occurrence); no entry is
created when the key is absent. -/
def amod (k : String) (f : β → β) : List (String × β) → List (String × β)
  | [] => []
  | p :: l => if p.1 = k then (p.1, f p.2) :: l else p :: amod k f l

/-- Append `x` to the list stored at key `k`, creating the entry when the
key is absent — Go's `m[k] = append(m[k], x)`. -/
def apush (k : String) (x : Release) : Inner → Inner
  | [] => [(k, [x])]
  | p :: l => if p.1 = k then (p.1, p.2 ++ [x]) :: l else p :: apush k x l

/-- The `(v, t)` bucket of the ledger; Go's `r[v][t]` (a nil slice when the
version or type is absent). -/
def getList (r : Releases) (v : Version) (t : ReleaseType) : List Release :=
  (alookup t ((alookup v r).getD [])).getD []

/-- Go's `if _, ok := r[version]; !ok { r[version] = make(...) }`. -/
def ensure (r : Releases) (v : Version) : Releases :=
  if (alookup v r).isSome then r else r ++ [(v, [])]

/-- Model of `Releases.Add` (main.go lines 113-127).  The `num` argument is
accepted, as in the source, and never used.  `none` models the panic inside
`nextVersion` on an unparsable version string. -/
def Releases.add (r : Releases) (version : Version) (typ : ReleaseType)
    (num : Int) (date : Int) : Option Releases :=
  match nextVersion version with
  | none => none
  | some nv =>
    if (match alookup nv (ensure r version) with
        | some inner => (alookup GARelease inner).isSome
        | none => false) && (typ = GARelease : Bool) then
      some (ensure r version)
    else some (amod version (apush typ ⟨date, 0⟩) (ensure r version))

/-! ## Duration assignment (main.go lines 129-182) -/

/-- Modify the element at index `i`; out of range leaves the list
unchanged (every call site stays in range, where the original would
panic). -/
def modIdx (i : Nat) (f : α → α) : List α → List α
  | [] => []
  | x :: l =>
    match i with
    | 0 => f x :: l
    | j + 1 => x :: modIdx j f l

/-- Model of `SetDuration` (main.go lines 179-182): duration of
`r[v][t][idx]` becomes `date - r[v][t][idx].date`. -/
def setDuration (r : Releases) (v : Version) (t : ReleaseType)
    (date : Int) (idx : Nat) : Releases :=
  amod v (amod t (modIdx idx (fun rel => { rel with duration := date - rel.date }))) r

/-- Model of `SetLastDuration` (main.go lines 169-175): the guarded index
`len - 1 < 0` is exactly `len = 0`. -/
def setLastDuration (r : Releases) (v : Version) (t : ReleaseType)
    (date : Int) : Releases :=
  if (getList r v t).length = 0 then r
  else setDuration r v t date ((getList r v t).length - 1)

/-- One iteration of the pass-1 `switch` in `SetDurations`
(main.go lines 136-149) for the record at index `i` of bucket `(v, t)`
whose date is `date`.  `none` models the two abort points: the
`prevVersion` panic, and the `r[v][t][-1]` panic the default case hits for
an unknown release type at index 0. -/
def pass1rec (r : Releases) (v : Version) (t : ReleaseType) (i : Nat)
    (date : Int) : Option Releases :=
  if t = BetaRelease ∧ i = 0 then some r
  else if t = RCRelease ∧ i = 0 then some (setLastDuration r v BetaRelease date)
  else if t = GARelease ∧ i = 0 then
    match prevVersion v with
    | none => none
    | some pv => some (setLastDuration (setLastDuration r v RCRelease date) pv GARelease date)
  else if i = 0 then none
  else some (setDuration r v t date (i - 1))

/-- Pass 1 over one bucket: fold `pass1rec` over the bucket's dates,
numbering records from `i`. -/
def pass1bucketAux (v : Version) (t : ReleaseType) :
    Nat → List Int → Releases → Option Releases
  | _, [], r => some r
  | i, d :: ds, r =>
    match pass1rec r v t i d with
    | none => none
    | some r1 => pass1bucketAux v t (i + 1) ds r1

/-- Pass 1 over one bucket, reading the dates from the current ledger. -/
def pass1bucketOn (r : Releases) (v : Version) (t : ReleaseType) : Option Releases :=
  pass1bucketAux v t 0 ((getList r v t).map Release.date) r

/-- Pass 1 of `SetDurations` along an explicit bucket iteration order
(Go map iteration order is arbitrary). -/
def pass1 (r : Releases) : List (Version × ReleaseType) → Option Releases
  | [] => some r
  | b :: bs =>
    match pass1bucketOn r b.1 b.2 with
    | none => none
    | some r1 => pass1 r1 bs

/-- The bucket enumeration of a ledger: every `(version, type)` pair
present in the two-level map. -/
def bucketsOf (r : Releases) : List (Version × ReleaseType) :=
  r.bind (fun p => p.2.map (fun q => (p.1, q.1)))

/-- Pass 2 of `SetDurations` over the index list of one bucket, threading
the wall-clock read counter: a record whose duration is still zero is
closed with the next clock reading against its own index
(main.go lines 157-165). -/
def pass2idx (clock : Nat → Int) (v : Version) (t : ReleaseType) :
    List Nat → Releases × Nat → Releases × Nat
  | [], sk => sk
  | i :: is, (r, k) =>
    match (getList r v t).get? i with
    | none => pass2idx clock v t is (r, k)
    | some rel =>
      if rel.duration = 0 then
        pass2idx clock v t is (setDuration r v t (clock k) i, k + 1)
      else
        pass2idx clock v t is (r, k)

/-- Pass 2 over one bucket. -/
def pass2bucketOn (clock : Nat → Int) (r : Releases) (v : Version)
    (t : ReleaseType) (k : Nat) : Releases × Nat :=
  pass2idx clock v t (List.range (getList r v t).length) (r, k)

/-- Pass 2 along an explicit bucket iteration order. -/
def pass2 (clock : Nat → Int) : List (Version × ReleaseType) →
    Releases × Nat → Releases × Nat
  | [], sk => sk
  | b :: bs, sk => pass2 clock bs (pass2bucketOn clock sk.1 b.1 b.2 sk.2)

/-- Model of `SetDurations` (main.go lines 131-166): pass 1 followed by
pass 2, where `clock k` is the value of the k-th `time.Now()` read of
pass 2.  `none` models the pass-1 panics. -/
def setDurationsClock (r : Releases) (clock : Nat → Int) : Option Releases :=
  match pass1 r (bucketsOf r) with
  | none => none
  | some r1 => some (pass2 clock (bucketsOf r1) (r1, 0)).1

/-- Duration assignment with a single reference time `now`, i.e. every
wall-clock read returning the same value. -/
def Releases.setDurations (r : Releases) (now : Int) : Option Releases :=
  setDurationsClock r (fun _ => now)

/-! ## The tag interpreter (main.go lines 77-110)

The tag pattern is the fixed regular expression
`go([0-9]+\.[0-9]+)(\.|rc|beta|)([0-9+]|)\t(.*)\n` searched with Go's
leftmost-first submatch semantics (earliest start position; alternatives
tried left to right; quantifiers greedy with backtracking).  The matcher
below implements exactly that search for this one pattern. -/

/-- Decidable equality for MakeReleases results (kept one synthesis step
deep so that concrete evaluations stay within instance-search limits). -/
instance : DecidableEq (Except String Releases) := fun a b =>
  match a, b with
  | Except.error e1, Except.error e2 =>
    if h : e1 = e2 then isTrue (by rw [h])
    else isFalse (fun hh => h (by injection hh))
  | Except.ok r1, Except.ok r2 =>
    if h : r1 = r2 then isTrue (by rw [h])
    else isFalse (fun hh => h (by injection hh))
  | Except.error _, Except.ok _ => isFalse (fun hh => Except.noConfusion hh)
  | Except.ok _, Except.error _ => isFalse (fun hh => Except.noConfusion hh)

/-- One submatch record: groups 1-4 of the tag pattern. -/
structure RawTag where
  version : String
  typ : String
  numStr : String
  dateStr : String
deriving DecidableEq, Repr

/-- Match `\t(.*)\n` (where `.` never matches a newline): the tab, then
everything up to the next newline, which must exist. -/
def tabTail : List Char → Option (String × List Char)
  | '\t' :: rest =>
    let g4 := rest.takeWhile (fun c => c ≠ '\n')
    (match rest.drop g4.length with
     | '\n' :: r => some (String.mk g4, r)
     | _ => none)
  | _ => none

/-- Match `([0-9+]|)\t(.*)\n`: a single digit-or-plus character first,
then the empty alternative. -/
def finishTail (rem : List Char) : Option (String × String × List Char) :=
  (match rem with
   | c :: rest =>
     if isDigitChar c || c = '+' then
       (tabTail rest).map (fun q => (String.mk [c], q.1, q.2))
     else none
   | [] => none)
  <|> (tabTail rem).map (fun q => ("", q.1, q.2))

/-- Match `(\.|rc|beta|)([0-9+]|)\t(.*)\n`: the four alternatives of
group 2 in the source order. -/
def tryG2 (rem : List Char) : Option (String × String × String × List Char) :=
  (match rem with
   | '.' :: r => (finishTail r).map (fun q => (".", q))
   | _ => none)
  <|> (match rem with
   | 'r' :: 'c' :: r => (finishTail r).map (fun q => ("rc", q))
   | _ => none)
  <|> (match rem with
   | 'b' :: 'e' :: 't' :: 'a' :: r => (finishTail r).map (fun q => ("beta", q))
   | _ => none)
  <|> (finishTail rem).map (fun q => ("", q))

/-- Greedy backtracking over the length of the second `[0-9]+` of
group 1: `run` is the maximal digit run, `after` the characters past it;
lengths are tried from `k` downwards. -/
def tryLens (run after : List Char) :
    Nat → Option (List Char × String × String × String × List Char)
  | 0 => none
  | k + 1 =>
    (tryG2 (run.drop (k + 1) ++ after)).map (fun q => (run.take (k + 1), q))
    <|> tryLens run after k

/-- Match the pattern right after a literal `go`, returning the submatch
groups and the rest of the input past the final newline. -/
def matchGo (l : List Char) : Option (RawTag × List Char) :=
  let d1 := l.takeWhile isDigitChar
  if d1 = [] then none
  else
    match l.drop d1.length with
    | '.' :: rest =>
      let run := rest.takeWhile isDigitChar
      (tryLens run (rest.drop run.length) run.length).map
        (fun q => (⟨String.mk (d1 ++ '.' :: q.1), q.2.1, q.2.2.1, q.2.2.2.1⟩, q.2.2.2.2))
    | _ => none

/-- `FindAllStringSubmatch(_, -1)`: scan every start position left to
right, collect non-overlapping matches, resume after each match. -/
def findTagsAux : Nat → List Char → List RawTag
  | 0, _ => []
  | _ + 1, [] => []
  | fuel + 1, c :: rest =>
    if c = 'g' then
      match rest with
      | 'o' :: rest2 =>
        (match matchGo rest2 with
         | some q => q.1 :: findTagsAux fuel q.2
         | none => findTagsAux fuel rest)
      | _ => findTagsAux fuel rest
    else findTagsAux fuel rest

def findTags (out : String) : List RawTag :=
  findTagsAux out.data.length out.data

/-- The version pattern of the tag interpreter, `[0-9]+\.[0-9]+`, as a
whole-string shape check. -/
def versionShape (s : String) : Bool :=
  let d1 := s.data.takeWhile isDigitChar
  !d1.isEmpty &&
    (match s.data.drop d1.length with
     | '.' :: rest => !rest.isEmpty && rest.all isDigitChar
     | _ => false)

/-! ## Timestamp parsing

Model of Go `time.Parse("Mon Jan _2 15:04:05 2006 -0700", s)`, producing
the instant as Unix seconds.  `none` models the parse error. -/

/-- Drop an exact literal from the front of the input. -/
def dropLit : List Char → List Char → Option (List Char)
  | [], l => some l
  | c :: cs, x :: l => if x = c then dropLit cs l else none
  | _ :: _, [] => none

/-- ASCII lower-casing of one character; Go's `time/format.go` `match`
compares bytes after setting the `0x20` case bit on letters. -/
def lowerAscii (c : Char) : Char :=
  if 'A' ≤ c ∧ c ≤ 'Z' then Char.ofNat (c.toNat + 32) else c

/-- Drop a literal from the front of the input comparing characters
ASCII-case-insensitively, as `time/format.go` `match` (used by `lookup`
on the weekday and month name tables) does: two bytes agree when equal or
when they differ only in the case bit and are letters, which for the
all-letter name tables is exactly agreement after ASCII lower-casing. -/
def dropLitCI : List Char → List Char → Option (List Char)
  | [], l => some l
  | c :: cs, x :: l =>
    if lowerAscii x = lowerAscii c then dropLitCI cs l else none
  | _ :: _, [] => none

/-- Weekday name per `lookup(shortDayNames, value)`: case-insensitive,
and the parsed weekday is discarded (`time.Parse` never cross-checks it
against the date). -/
def dropWeekday (l : List Char) : Option (List Char) :=
  dropLitCI "Sun".data l <|> dropLitCI "Mon".data l <|> dropLitCI "Tue".data l
    <|> dropLitCI "Wed".data l <|> dropLitCI "Thu".data l
    <|> dropLitCI "Fri".data l <|> dropLitCI "Sat".data l

def takeMonthAux : List (List Char × Nat) → List Char → Option (Nat × List Char)
  | [], _ => none
  | e :: es, l =>
    match dropLitCI e.1 l with
    | some r => some (e.2, r)
    | none => takeMonthAux es l

/-- Month name per `lookup(shortMonthNames, value)`: case-insensitive. -/
def takeMonth (l : List Char) : Option (Nat × List Char) :=
  takeMonthAux
    [("Jan".data, 1), ("Feb".data, 2), ("Mar".data, 3), ("Apr".data, 4),
     ("May".data, 5), ("Jun".data, 6), ("Jul".data, 7), ("Aug".data, 8),
     ("Sep".data, 9), ("Oct".data, 10), ("Nov".data, 11), ("Dec".data, 12)] l

/-- One or two decimal digits (Go `getnum` with `fixed = false`). -/
def take2num : List Char → Option (Nat × List Char)
  | [] => none
  | [c] => if isDigitChar c then some (digitVal c, []) else none
  | c :: d :: rest =>
    if isDigitChar c then
      if isDigitChar d then some (10 * digitVal c + digitVal d, rest)
      else some (digitVal c, d :: rest)
    else none

/-- Exactly two decimal digits. -/
def takeFixed2 : List Char → Option (Nat × List Char)
  | c :: d :: rest =>
    if isDigitChar c && isDigitChar d then
      some (10 * digitVal c + digitVal d, rest)
    else none
  | _ => none

/-- Exactly four decimal digits. -/
def takeFixed4 : List Char → Option (Nat × List Char)
  | a :: b :: c :: d :: rest =>
    if isDigitChar a && isDigitChar b && isDigitChar c && isDigitChar d then
      some (1000 * digitVal a + 100 * digitVal b + 10 * digitVal c + digitVal d, rest)
    else none
  | _ => none

def isLeapYear (y : Nat) : Bool :=
  y % 4 = 0 && (y % 100 ≠ 0 || y % 400 = 0)

def daysInMonth (y m : Nat) : Nat :=
  if m = 2 then (if isLeapYear y then 29 else 28)
  else if m = 4 || m = 6 || m = 9 || m = 11 then 30
  else 31

/-- Days between a civil date and 1970-01-01 (proleptic Gregorian). -/
def daysFromCivil (y m d : Int) : Int :=
  let y1 := y - (if m ≤ 2 then 1 else 0)
  let era := (if 0 ≤ y1 then y1 else y1 - 399) / 400
  let yoe := y1 - era * 400
  let mp := if 2 < m then m - 3 else m + 9
  let doy := (153 * mp + 2) / 5 + d - 1
  let doe := yoe * 365 + yoe / 4 - yoe / 100 + doy
  era * 146097 + doe - 719468

/-- The `_2` day column: Go drops one leading space before reading one or
two digits. -/
def parseDay (l : List Char) : Option (Nat × List Char) :=
  match l with
  | ' ' :: r => take2num r
  | _ => take2num l

/-- `time.Parse` tolerates a fractional second absent from the layout:
right after the seconds digits, a period or comma followed by at least one
digit is consumed (the digits become nanoseconds, which never move the
Unix second; for this layout the branch always succeeds, since at most
nine digits feed `atoi` and the rest are discarded). -/
def skipFrac : List Char → List Char
  | c :: d :: rest =>
    if (c = '.' ∨ c = ',') ∧ isDigitChar d then
      (d :: rest).dropWhile isDigitChar
    else c :: d :: rest
  | l => l

/-- The `15:04:05` columns, including the fractional-second tolerance. -/
def parseClock (l : List Char) : Option (Nat × Nat × Nat × List Char) :=
  match take2num l with
  | none => none
  | some hq =>
    match dropLit [':'] hq.2 with
    | none => none
    | some l2 =>
      match takeFixed2 l2 with
      | none => none
      | some mq =>
        match dropLit [':'] mq.2 with
        | none => none
        | some l3 =>
          match takeFixed2 l3 with
          | none => none
          | some sq => some (hq.1, mq.1, sq.1, skipFrac sq.2)

/-- The `-0700` column: sign and four digits, giving the offset in
seconds. -/
def parseZone (l : List Char) : Option (Int × List Char) :=
  match l with
  | '+' :: r => parseZoneDigits r
  | '-' :: r => (parseZoneDigits r).map (fun q => (-q.1, q.2))
  | _ => none
where parseZoneDigits (r : List Char) : Option (Int × List Char) :=
  match takeFixed2 r with
  | none => none
  | some zh =>
    match takeFixed2 zh.2 with
    | none => none
    | some zm => some ((3600 * zh.1 + 60 * zm.1 : Nat), zm.2)

/-- Assemble the Unix instant, applying the range checks `time.Parse`
performs (day against the month's length, hour, minute, second) and
requiring the whole value to be consumed. -/
def mkUnix (yy mo day hh mi ss : Nat) (off : Int) (rest : List Char) : Option Int :=
  if rest = [] ∧ hh ≤ 23 ∧ mi ≤ 59 ∧ ss ≤ 59 ∧ 1 ≤ day ∧ day ≤ daysInMonth yy mo then
    some (86400 * daysFromCivil (yy : Int) (mo : Int) (day : Int)
      + 3600 * (hh : Int) + 60 * (mi : Int) + (ss : Int) - off)
  else none

def parseGoDate (s : String) : Option Int :=
  match dropWeekday s.data with
  | none => none
  | some l1 =>
    match dropLit [' '] l1 with
    | none => none
    | some l2 =>
      match takeMonth l2 with
      | none => none
      | some moq =>
        match dropLit [' '] moq.2 with
        | none => none
        | some l4 =>
          match parseDay l4 with
          | none => none
          | some dayq =>
            match dropLit [' '] dayq.2 with
            | none => none
            | some l6 =>
              match parseClock l6 with
              | none => none
              | some cq =>
                match dropLit [' '] cq.2.2.2 with
                | none => none
                | some l12 =>
                  match takeFixed4 l12 with
                  | none => none
                  | some yq =>
                    match dropLit [' '] yq.2 with
                    | none => none
                    | some l14 =>
                      match parseZone l14 with
                      | none => none
                      | some zq =>
                        mkUnix yq.1 moq.1 dayq.1 cq.1 cq.2.1 cq.2.2.1 zq.1 zq.2

/-! ## MakeReleases (main.go lines 77-110) -/

/-- Fold the matched tags into a ledger.  The outer `Option` is `none`
when `Add` panics; `Except.error` is the function's error return (first
failing tag wins); parsing a tag tries the release number first, then the
date, as the source does. -/
def interpretTags : List RawTag → Releases → Option (Except String Releases)
  | [], acc => some (Except.ok acc)
  | t :: ts, acc =>
    match (if t.numStr = "" then some 0 else parseInt64 t.numStr) with
    | none => some (Except.error "could not parse release number")
    | some num =>
      match parseGoDate t.dateStr with
      | none => some (Except.error "could not parse date")
      | some date =>
        match Releases.add acc t.version (if t.typ = "" then GARelease else t.typ)
            num date with
        | none => none
        | some acc1 => interpretTags ts acc1

/-- Model of `MakeReleases` (main.go lines 77-110). -/
def makeReleases (out : String) : Option (Except String Releases) :=
  interpretTags (findTags out) []

/-- Close the last record of a bucket with closing time `d`: its duration
becomes `d` minus its own date; the empty bucket is left unchanged. -/
def closeLast (l : List Release) (d : Int) : List Release :=
  modIdx (l.length - 1) (fun rel => { rel with duration := d - rel.date }) l

/-- The dates of a bucket, in order.  Duration assignment never changes
this projection. -/
def datesOf (r : Releases) (v : Version) (t : ReleaseType) : List Int :=
  (getList r v t).map Release.date

/-! ### Pass 1 as a list of writes

Every pass-1 iteration either does nothing or performs `SetDuration`
writes whose targets and values are determined by the (immutable) dates
and bucket lengths.  Reifying the writes of one bucket as data lets the
bucket-iteration order be permuted. -/

/-- One pass-1 write: close the record at index `i` of bucket `(v, t)`
with closing time `d`. -/
structure W where
  v : Version
  t : ReleaseType
  i : Nat
  d : Int
deriving DecidableEq, Repr

def applyW (r : Releases) (w : W) : Releases :=
  setDuration r w.v w.t w.d w.i

def applyWs (r : Releases) (ws : List W) : Releases :=
  ws.foldl applyW r

/-- The default-case writes of the records at index ≥ 1 of a bucket:
the record with date `d` at index `i + 1` closes index `i`. -/
def selfWs (v : Version) (t : ReleaseType) : Nat → List Int → List W
  | _, [] => []
  | i, d :: ds => ⟨v, t, i, d⟩ :: selfWs v t (i + 1) ds

/-- The write `SetLastDuration` performs (no write when the bucket is
absent or empty). -/
def lastW (r : Releases) (v : Version) (t : ReleaseType) (d : Int) : List W :=
  if (getList r v t).length = 0 then []
  else [⟨v, t, (getList r v t).length - 1, d⟩]

/-- The writes pass 1 performs while iterating one bucket, read off the
ledger `r`; `none` when processing the bucket would panic. -/
def writesOf (r : Releases) (v : Version) (t : ReleaseType) : Option (List W) :=
  match (getList r v t).map Release.date with
  | [] => some []
  | d0 :: rest =>
    if t = BetaRelease then some (selfWs v t 0 rest)
    else if t = RCRelease then some (lastW r v BetaRelease d0 ++ selfWs v t 0 rest)
    else if t = GARelease then
      match prevVersion v with
      | none => none
      | some pv =>
        some (lastW r v RCRelease d0 ++ lastW r pv GARelease d0 ++ selfWs v t 0 rest)
    else none

/-- Two write lists are compatible when writes aimed at the same record
carry the same closing time. -/
def Compat (ws1 ws2 : List W) : Prop :=
  ∀ w1 ∈ ws1, ∀ w2 ∈ ws2,
    w1.v = w2.v → w1.t = w2.t → w1.i = w2.i → w1.d = w2.d

/-! ## Association-list and index-update lemmas -/

theorem alookup_amod_self (k : String) (f : β → β) (l : List (String × β)) :
    alookup k (amod k f l) = (alookup k l).map f := by
  induction l with
  | nil => rfl
  | cons p l ih =>
    by_cases h : p.1 = k
    · simp [amod, alookup, h]
    · simp [amod, alookup, h, ih]

theorem alookup_amod_ne (k k' : String) (h : k' ≠ k) (f : β → β)
    (l : List (String × β)) : alookup k' (amod k f l) = alookup k' l := by
  have hkk : ¬ k = k' := fun hh => h hh.symm
  induction l with
  | nil => rfl
  | cons p l ih =>
    by_cases h1 : p.1 = k
    · simp [amod, alookup, h1, hkk]
    · simp [amod, alookup, h1, ih]

theorem alookup_append (k : String) (l1 l2 : List (String × β)) :
    alookup k (l1 ++ l2) =
      match alookup k l1 with
      | some b => some b
      | none => alookup k l2 := by
  induction l1 with
  | nil => rfl
  | cons p l ih =>
    by_cases h : p.1 = k <;> simp [alookup, h, ih]

theorem modIdx_nil (i : Nat) (f : α → α) : modIdx i f [] = [] := by
  simp [modIdx]

theorem length_modIdx (i : Nat) (f : α → α) (l : List α) :
    (modIdx i f l).length = l.length := by
  induction l generalizing i with
  | nil => simp [modIdx]
  | cons x l ih =>
    cases i with
    | zero => simp [modIdx]
    | succ j => simp [modIdx, ih]

theorem get?_modIdx_self (i : Nat) (f : α → α) (l : List α) :
    (modIdx i f l).get? i = (l.get? i).map f := by
  induction l generalizing i with
  | nil => simp [modIdx]
  | cons x l ih =>
    cases i with
    | zero => simp [modIdx]
    | succ j => simpa [modIdx] using ih j

theorem map_modIdx (i : Nat) (f : α → α) (g : α → γ) (h : ∀ x, g (f x) = g x)
    (l : List α) : (modIdx i f l).map g = l.map g := by
  induction l generalizing i with
  | nil => simp [modIdx]
  | cons x l ih =>
    cases i with
    | zero => simp [modIdx, h]
    | succ j => simp [modIdx, ih]

theorem get?_modIdx_ne (i j : Nat) (h : i ≠ j) (f : α → α) (l : List α) :
    (modIdx i f l).get? j = l.get? j := by
  induction l generalizing i j with
  | nil => simp [modIdx]
  | cons x l ih =>
    cases i with
    | zero =>
      cases j with
      | zero => exact absurd rfl h
      | succ j1 => simp [modIdx]
    | succ i1 =>
      cases j with
      | zero => simp [modIdx]
      | succ j1 =>
        have : i1 ≠ j1 := fun hh => h (by rw [hh])
        simpa [modIdx] using ih i1 j1 this

theorem modIdx_congr (i : Nat) (f g : α → α) (h : ∀ x, f x = g x) (l : List α) :
    modIdx i f l = modIdx i g l := by
  induction l generalizing i with
  | nil => simp [modIdx]
  | cons x l ih =>
    cases i with
    | zero => simp [modIdx, h]
    | succ j => simp [modIdx, ih]

theorem modIdx_modIdx_self (i : Nat) (f g : α → α) (l : List α) :
    modIdx i f (modIdx i g l) = modIdx i (fun x => f (g x)) l := by
  induction l generalizing i with
  | nil => simp [modIdx]
  | cons x l ih =>
    cases i with
    | zero => simp [modIdx]
    | succ j => simp [modIdx, ih]

theorem modIdx_modIdx_ne (i j : Nat) (h : i ≠ j) (f g : α → α) (l : List α) :
    modIdx i f (modIdx j g l) = modIdx j g (modIdx i f l) := by
  induction l generalizing i j with
  | nil => simp [modIdx]
  | cons x l ih =>
    cases i with
    | zero =>
      cases j with
      | zero => exact absurd rfl h
      | succ j1 => simp [modIdx]
    | succ i1 =>
      cases j with
      | zero => simp [modIdx]
      | succ j1 =>
        have : i1 ≠ j1 := fun hh => h (by rw [hh])
        simp [modIdx, ih i1 j1 this]

theorem amod_congr (k : String) (f g : β → β) (h : ∀ b, f b = g b)
    (l : List (String × β)) : amod k f l = amod k g l := by
  induction l with
  | nil => rfl
  | cons p l ih =>
    by_cases hp : p.1 = k <;> simp [amod, hp, h, ih]

theorem amod_amod_self (k : String) (f g : β → β) (l : List (String × β)) :
    amod k f (amod k g l) = amod k (fun b => f (g b)) l := by
  induction l with
  | nil => rfl
  | cons p l ih =>
    by_cases hp : p.1 = k <;> simp [amod, hp, ih]

theorem amod_amod_ne (k1 k2 : String) (h : k1 ≠ k2) (f g : β → β)
    (l : List (String × β)) :
    amod k1 f (amod k2 g l) = amod k2 g (amod k1 f l) := by
  have h' : ¬ k1 = k2 := h
  have h'' : ¬ k2 = k1 := fun hh => h hh.symm
  induction l with
  | nil => rfl
  | cons p l ih =>
    by_cases h1 : p.1 = k1
    · have h2 : ¬ p.1 = k2 := fun hh => h (h1 ▸ hh)
      simp [amod, h1, h2, h', h'']
    · by_cases h2 : p.1 = k2 <;> simp [amod, h1, h2, h', h'', ih]

/-! ## Effect of `setDuration` and `setLastDuration` on buckets -/

theorem getList_setDuration (r : Releases) (v : Version) (t : ReleaseType)
    (d : Int) (i : Nat) (v' : Version) (t' : ReleaseType) :
    getList (setDuration r v t d i) v' t' =
      if v = v' ∧ t = t' then
        modIdx i (fun rel => { rel with duration := d - rel.date }) (getList r v' t')
      else getList r v' t' := by
  by_cases hc : v = v' ∧ t = t'
  · obtain ⟨hv, ht⟩ := hc
    subst hv; subst ht
    rw [if_pos (show v = v ∧ t = t from ⟨rfl, rfl⟩)]
    unfold setDuration getList
    rw [alookup_amod_self]
    cases h1 : alookup v r with
    | none => simp [alookup, modIdx]
    | some inner =>
      simp only [Option.map_some', Option.getD_some]
      rw [alookup_amod_self]
      cases h2 : alookup t inner with
      | none => simp [modIdx]
      | some lst => simp
  · rw [if_neg hc]
    unfold setDuration getList
    by_cases hv : v = v'
    · subst hv
      have ht : ¬ t = t' := fun hh => hc ⟨rfl, hh⟩
      rw [alookup_amod_self]
      cases h1 : alookup v r with
      | none => simp
      | some inner =>
        simp only [Option.map_some', Option.getD_some]
        rw [alookup_amod_ne t t' (fun hh => ht hh.symm)]
    · rw [alookup_amod_ne v v' (fun hh => hv hh.symm)]

theorem getList_setLastDuration (r : Releases) (v : Version) (t : ReleaseType)
    (d : Int) (v' : Version) (t' : ReleaseType) :
    getList (setLastDuration r v t d) v' t' =
      if v = v' ∧ t = t' then closeLast (getList r v t) d
      else getList r v' t' := by
  unfold setLastDuration
  by_cases h0 : (getList r v t).length = 0
  · rw [if_pos h0]
    by_cases hc : v = v' ∧ t = t'
    · obtain ⟨hv, ht⟩ := hc
      subst hv; subst ht
      have he : getList r v t = [] := List.length_eq_zero.mp h0
      rw [if_pos (show v = v ∧ t = t from ⟨rfl, rfl⟩), he, closeLast, modIdx_nil]
    · rw [if_neg hc]
  · rw [if_neg h0, getList_setDuration]
    by_cases hc : v = v' ∧ t = t'
    · obtain ⟨hv, ht⟩ := hc
      subst hv; subst ht
      rw [if_pos (show v = v ∧ t = t from ⟨rfl, rfl⟩),
        if_pos (show v = v ∧ t = t from ⟨rfl, rfl⟩), closeLast]
    · rw [if_neg hc, if_neg hc]

theorem getList_ensure (r : Releases) (v v' : Version) (t' : ReleaseType) :
    getList (ensure r v) v' t' = getList r v' t' := by
  unfold ensure
  by_cases h : (alookup v r).isSome
  · rw [if_pos h]
  · rw [if_neg h]
    unfold getList
    rw [alookup_append]
    cases h1 : alookup v' r with
    | some inner => simp
    | none =>
      by_cases h2 : v = v'
      · subst h2
        simp [alookup]
      · simp [alookup, h2]

theorem getList_ne_nil (r : Releases) (v : Version) (t : ReleaseType)
    (h : getList r v t ≠ []) :
    ∃ inner lst, alookup v r = some inner ∧ alookup t inner = some lst ∧ lst ≠ [] := by
  cases h1 : alookup v r with
  | none =>
    exact absurd (show getList r v t = [] by simp [getList, alookup, h1]) h
  | some inner =>
    cases h2 : alookup t inner with
    | none =>
      exact absurd (show getList r v t = [] by simp [getList, h1, h2]) h
    | some lst =>
      exact ⟨inner, lst, rfl, h2, fun he =>
        h (show getList r v t = [] by simp [getList, h1, h2, he])⟩

/-! ## Claim theorems: insertion -/

/-- C10: the ledger insertion `Add` ignores its sequence-number argument
entirely: any two sequence numbers produce identical ledgers. -/
theorem C10_add_ignores_num (r : Releases) (v : Version) (t : ReleaseType)
    (n1 n2 d : Int) : Releases.add r v t n1 d = Releases.add r v t n2 d := rfl

/-- C2: if the ledger already holds a GeneralAvailability record for
`nextVersion v`, inserting a GeneralAvailability release for `v` succeeds
and leaves every bucket of the ledger — in particular `(v, GA)` —
unchanged: the insertion is discarded before appending, and no existing
record is deleted or modified. -/
theorem C2_supersession_frame (r : Releases) (v nv : Version) (n d : Int)
    (hnv : nextVersion v = some nv)
    (hga : getList r nv GARelease ≠ []) :
    ∃ r', Releases.add r v GARelease n d = some r' ∧
      ∀ v' t', getList r' v' t' = getList r v' t' := by
  refine ⟨ensure r v, ?_, fun v' t' => getList_ensure r v v' t'⟩
  obtain ⟨inner, lst, hin, hgl, -⟩ := getList_ne_nil r nv GARelease hga
  have hin1 : alookup nv (ensure r v) = some inner := by
    unfold ensure
    by_cases h : (alookup v r).isSome
    · rw [if_pos h]; exact hin
    · rw [if_neg h, alookup_append, hin]
  unfold Releases.add
  rw [hnv]
  simp [hin1, hgl]

/-- C1: during duration assignment, processing the first
GeneralAvailability record of a version `v` (index 0, date `g.date`)
performs both closures: the last ReleaseCandidate record of `v` gets
duration `g.date` minus its own date, and the last GeneralAvailability
record of the previous minor version gets duration `g.date` minus its own
date; each closure leaves an absent or empty bucket unchanged
(`closeLast` of an empty list is the empty list). -/
theorem C1_first_ga_closures (r : Releases) (v pv : Version) (g : Release)
    (hpv : prevVersion v = some pv)
    (hga : (getList r v GARelease).head? = some g) :
    ∃ r', pass1rec r v GARelease 0 g.date = some r' ∧
      getList r' v RCRelease = closeLast (getList r v RCRelease) g.date ∧
      getList r' pv GARelease = closeLast (getList r pv GARelease) g.date := by
  have h1 : ¬ (GARelease = BetaRelease ∧ (0 : Nat) = 0) := by decide
  have h2 : ¬ (GARelease = RCRelease ∧ (0 : Nat) = 0) := by decide
  have h3 : (GARelease = GARelease ∧ (0 : Nat) = 0) := by decide
  refine ⟨setLastDuration (setLastDuration r v RCRelease g.date) pv GARelease g.date, ?_, ?_, ?_⟩
  · unfold pass1rec
    rw [if_neg h1, if_neg h2, if_pos h3, hpv]
  · rw [getList_setLastDuration]
    have : ¬ (pv = v ∧ GARelease = RCRelease) := by
      intro hh; exact absurd hh.2 (by decide)
    rw [if_neg this, getList_setLastDuration, if_pos ⟨rfl, rfl⟩]
  · rw [getList_setLastDuration, if_pos ⟨rfl, rfl⟩]
    have : ¬ (v = pv ∧ RCRelease = GARelease) := by
      intro hh; exact absurd hh.2 (by decide)
    rw [getList_setLastDuration, if_neg this]

/-- C1 witness: instantiation at a concrete ledger holding a GA record, an
RC record for "1.7", and a GA record for "1.6". -/
theorem C1_first_ga_closures_witness :
    prevVersion "1.7" = some "1.6" ∧
    (getList [("1.7", [(".", [⟨10, 0⟩]), ("rc", [⟨3, 0⟩])]), ("1.6", [(".", [⟨1, 0⟩])])]
        "1.7" GARelease).head? = some (⟨10, 0⟩ : Release) ∧
    (∃ r', pass1rec [("1.7", [(".", [⟨10, 0⟩]), ("rc", [⟨3, 0⟩])]), ("1.6", [(".", [⟨1, 0⟩])])]
        "1.7" GARelease 0 (Release.mk 10 0).date = some r' ∧
      getList r' "1.7" RCRelease =
        closeLast (getList [("1.7", [(".", [⟨10, 0⟩]), ("rc", [⟨3, 0⟩])]), ("1.6", [(".", [⟨1, 0⟩])])]
          "1.7" RCRelease) (Release.mk 10 0).date ∧
      getList r' "1.6" GARelease =
        closeLast (getList [("1.7", [(".", [⟨10, 0⟩]), ("rc", [⟨3, 0⟩])]), ("1.6", [(".", [⟨1, 0⟩])])]
          "1.6" GARelease) (Release.mk 10 0).date) :=
  ⟨by decide, by decide,
    C1_first_ga_closures _ "1.7" "1.6" ⟨10, 0⟩ (by decide) (by decide)⟩

/-- C2 witness: inserting a "1.6" GA release while a "1.7" GA release
exists. -/
theorem C2_supersession_frame_witness :
    nextVersion "1.6" = some "1.7" ∧
    getList [("1.7", [(".", [⟨100, 0⟩])])] "1.7" GARelease ≠ [] ∧
    (∃ r', Releases.add [("1.7", [(".", [⟨100, 0⟩])])] "1.6" GARelease 4 200 = some r' ∧
      ∀ v' t', getList r' v' t' = getList [("1.7", [(".", [⟨100, 0⟩])])] v' t') :=
  ⟨by decide, by decide,
    C2_supersession_frame _ "1.6" "1.7" 4 200 (by decide) (by decide)⟩

/-- C4: building a ledger for version "1.7" by inserting Beta seq 1 at T0,
Beta seq 2 at T1 and RC seq 1 at T2 (chronological, no GA), then assigning
durations with reference time `now` later than T2, gives Beta[0] duration
T1 − T0, Beta[1] duration T2 − T1 and RC[0] duration now − T2. -/
theorem C4_beta_rc_scenario (T0 T1 T2 now : Int) (h01 : T0 < T1) (h12 : T1 < T2)
    (h2n : T2 < now) :
    ∃ r r',
      (Releases.add [] "1.7" BetaRelease 1 T0).bind
        (fun a => (a.add "1.7" BetaRelease 2 T1).bind
          (fun b => b.add "1.7" RCRelease 1 T2)) = some r ∧
      r.setDurations now = some r' ∧
      (getList r' "1.7" BetaRelease).map Release.duration = [T1 - T0, T2 - T1] ∧
      (getList r' "1.7" RCRelease).map Release.duration = [now - T2] := by
  have h1' : ¬ (T1 - T0 = 0) := by omega
  have h2' : ¬ (T2 - T1 = 0) := by omega
  refine ⟨[("1.7", [("beta", [⟨T0, 0⟩, ⟨T1, 0⟩]), ("rc", [⟨T2, 0⟩])])],
    [("1.7", [("beta", [⟨T0, T1 - T0⟩, ⟨T1, T2 - T1⟩]), ("rc", [⟨T2, now - T2⟩])])],
    rfl, ?_, by simp [getList, alookup, BetaRelease, RCRelease],
    by simp [getList, alookup, BetaRelease, RCRelease]⟩
  have e1 : pass1 [("1.7", [("beta", [⟨T0, 0⟩, ⟨T1, 0⟩]), ("rc", [⟨T2, 0⟩])])]
      (bucketsOf [("1.7", [("beta", [⟨T0, 0⟩, ⟨T1, 0⟩]), ("rc", [⟨T2, 0⟩])])]) =
      some [("1.7", [("beta", [⟨T0, T1 - T0⟩, ⟨T1, T2 - T1⟩]), ("rc", [⟨T2, 0⟩])])] := rfl
  unfold Releases.setDurations setDurationsClock
  rw [e1]
  simp only [pass2, pass2bucketOn, pass2idx, bucketsOf, getList, alookup, setDuration,
    amod, modIdx, List.range, List.range.loop, Option.getD_some, List.get?, h1', h2',
    if_false, if_true, List.map, List.bind]
  simp

/-- C4 witness: the scenario at T0 = 0, T1 = 1, T2 = 2, now = 3. -/
theorem C4_beta_rc_scenario_witness :
    (0 : Int) < 1 ∧ (1 : Int) < 2 ∧ (2 : Int) < 3 ∧
    (∃ r r',
      (Releases.add [] "1.7" BetaRelease 1 0).bind
        (fun a => (a.add "1.7" BetaRelease 2 1).bind
          (fun b => b.add "1.7" RCRelease 1 2)) = some r ∧
      r.setDurations 3 = some r' ∧
      (getList r' "1.7" BetaRelease).map Release.duration = [1 - 0, 2 - 1] ∧
      (getList r' "1.7" RCRelease).map Release.duration = [3 - 2]) :=
  ⟨by decide, by decide, by decide,
    C4_beta_rc_scenario 0 1 2 3 (by decide) (by decide) (by decide)⟩

/-! ## Date invariance of duration assignment -/

theorem datesOf_setDuration (r : Releases) (v : Version) (t : ReleaseType)
    (d : Int) (i : Nat) (v' : Version) (t' : ReleaseType) :
    datesOf (setDuration r v t d i) v' t' = datesOf r v' t' := by
  unfold datesOf
  rw [getList_setDuration]
  by_cases hc : v = v' ∧ t = t'
  · rw [if_pos hc, map_modIdx]
    intro x; rfl
  · rw [if_neg hc]

theorem datesOf_setLastDuration (r : Releases) (v : Version) (t : ReleaseType)
    (d : Int) (v' : Version) (t' : ReleaseType) :
    datesOf (setLastDuration r v t d) v' t' = datesOf r v' t' := by
  unfold setLastDuration
  by_cases h0 : (getList r v t).length = 0
  · rw [if_pos h0]
  · rw [if_neg h0, datesOf_setDuration]

theorem datesOf_pass1rec (r r' : Releases) (v : Version) (t : ReleaseType)
    (i : Nat) (d : Int) (h : pass1rec r v t i d = some r')
    (v' : Version) (t' : ReleaseType) : datesOf r' v' t' = datesOf r v' t' := by
  unfold pass1rec at h
  by_cases h1 : t = BetaRelease ∧ i = 0
  · rw [if_pos h1] at h
    injection h with h
    rw [h]
  · rw [if_neg h1] at h
    by_cases h2 : t = RCRelease ∧ i = 0
    · rw [if_pos h2] at h
      injection h with h
      rw [← h, datesOf_setLastDuration]
    · rw [if_neg h2] at h
      by_cases h3 : t = GARelease ∧ i = 0
      · rw [if_pos h3] at h
        cases hp : prevVersion v with
        | none => rw [hp] at h; exact absurd h (by simp)
        | some pv =>
          rw [hp] at h
          injection h with h
          rw [← h, datesOf_setLastDuration, datesOf_setLastDuration]
      · rw [if_neg h3] at h
        by_cases h4 : i = 0
        · rw [if_pos h4] at h; exact absurd h (by simp)
        · rw [if_neg h4] at h
          injection h with h
          rw [← h, datesOf_setDuration]

theorem datesOf_pass1bucketAux (v : Version) (t : ReleaseType) :
    ∀ (ds : List Int) (i : Nat) (r r' : Releases),
      pass1bucketAux v t i ds r = some r' →
      ∀ v' t', datesOf r' v' t' = datesOf r v' t' := by
  intro ds
  induction ds with
  | nil =>
    intro i r r' h v' t'
    injection h with h
    rw [h]
  | cons d ds ih =>
    intro i r r' h v' t'
    unfold pass1bucketAux at h
    cases hp : pass1rec r v t i d with
    | none => rw [hp] at h; exact absurd h (by simp)
    | some r1 =>
      rw [hp] at h
      rw [ih (i + 1) r1 r' h v' t', datesOf_pass1rec r r1 v t i d hp]

theorem datesOf_pass1 :
    ∀ (bs : List (Version × ReleaseType)) (r r' : Releases),
      pass1 r bs = some r' → ∀ v' t', datesOf r' v' t' = datesOf r v' t' := by
  intro bs
  induction bs with
  | nil =>
    intro r r' h v' t'
    injection h with h
    rw [h]
  | cons b bs ih =>
    intro r r' h v' t'
    unfold pass1 at h
    cases hp : pass1bucketOn r b.1 b.2 with
    | none => rw [hp] at h; exact absurd h (by simp)
    | some r1 =>
      rw [hp] at h
      rw [ih r1 r' h v' t',
        datesOf_pass1bucketAux b.1 b.2 _ 0 r r1 hp v' t']

theorem datesOf_pass2idx (clock : Nat → Int) (v : Version) (t : ReleaseType) :
    ∀ (is : List Nat) (s : Releases) (k : Nat) (v' : Version) (t' : ReleaseType),
      datesOf (pass2idx clock v t is (s, k)).1 v' t' = datesOf s v' t' := by
  intro is
  induction is with
  | nil => intro s k v' t'; rfl
  | cons i is ih =>
    intro s k v' t'
    unfold pass2idx
    split
    · exact ih s k v' t'
    · split
      · rw [ih, datesOf_setDuration]
      · exact ih s k v' t'

theorem datesOf_pass2 (clock : Nat → Int) :
    ∀ (bs : List (Version × ReleaseType)) (s : Releases) (k : Nat)
      (v' : Version) (t' : ReleaseType),
      datesOf (pass2 clock bs (s, k)).1 v' t' = datesOf s v' t' := by
  intro bs
  induction bs with
  | nil => intro s k v' t'; rfl
  | cons b bs ih =>
    intro s k v' t'
    unfold pass2
    unfold pass2bucketOn
    cases hq : pass2idx clock b.1 b.2 (List.range (getList s b.1 b.2).length) (s, k) with
    | mk s1 k1 =>
      rw [ih s1 k1 v' t']
      have := datesOf_pass2idx clock b.1 b.2
        (List.range (getList s b.1 b.2).length) s k v' t'
      rw [hq] at this
      exact this

/-- Transport a pointwise date condition across date invariance, for one
bucket. -/
theorem date_transfer1 (s s' : Releases) (v : Version) (t : ReleaseType) (now : Int)
    (hinv : datesOf s' v t = datesOf s v t)
    (hd : ∀ i rel, (getList s v t).get? i = some rel → rel.date ≠ now) :
    ∀ i rel, (getList s' v t).get? i = some rel → rel.date ≠ now := by
  intro i rel hget
  have h1 : ((getList s' v t).map Release.date).get? i =
      ((getList s v t).map Release.date).get? i := by
    unfold datesOf at hinv
    rw [hinv]
  rw [List.get?_map, List.get?_map, hget] at h1
  cases hg2 : (getList s v t).get? i with
  | none => rw [hg2] at h1; exact absurd h1 (by simp)
  | some rel2 =>
    rw [hg2] at h1
    simp only [Option.map_some'] at h1
    injection h1 with h1
    rw [h1]
    exact hd i rel2 hg2

/-- Transport a pointwise date condition across date invariance, for the
whole ledger. -/
theorem date_transfer (s s' : Releases) (now : Int)
    (hinv : ∀ v t, datesOf s' v t = datesOf s v t)
    (hd : ∀ v t i rel, (getList s v t).get? i = some rel → rel.date ≠ now) :
    ∀ v t i rel, (getList s' v t).get? i = some rel → rel.date ≠ now :=
  fun v t => date_transfer1 s s' v t now (hinv v t) (hd v t)

theorem length_getList_eq_of_dates (s s' : Releases) (v : Version) (t : ReleaseType)
    (h : datesOf s' v t = datesOf s v t) :
    (getList s' v t).length = (getList s v t).length := by
  have := congrArg List.length h
  simpa [datesOf] using this

/-! ## Pass 2 pointwise behavior -/

theorem pass2idx_frame (clock : Nat → Int) (v : Version) (t : ReleaseType) :
    ∀ (is : List Nat) (s : Releases) (k : Nat) (v' : Version) (t' : ReleaseType),
      ¬ (v = v' ∧ t = t') →
      getList (pass2idx clock v t is (s, k)).1 v' t' = getList s v' t' := by
  intro is
  induction is with
  | nil => intro s k v' t' hne; rfl
  | cons i is ih =>
    intro s k v' t' hne
    unfold pass2idx
    split
    · exact ih s k v' t' hne
    · split
      · rw [ih _ _ _ _ hne, getList_setDuration, if_neg hne]
      · exact ih s k v' t' hne

theorem pass2idx_get_not_mem (clock : Nat → Int) (v : Version) (t : ReleaseType) :
    ∀ (is : List Nat) (s : Releases) (k : Nat) (j : Nat), j ∉ is →
      (getList (pass2idx clock v t is (s, k)).1 v t).get? j =
        (getList s v t).get? j := by
  intro is
  induction is with
  | nil => intro s k j hj; rfl
  | cons i is ih =>
    intro s k j hj
    have hji : j ≠ i := fun hh => hj (hh ▸ List.mem_cons_self i is)
    have hjis : j ∉ is := fun hh => hj (List.mem_cons_of_mem i hh)
    unfold pass2idx
    split
    · exact ih s k j hjis
    · split
      · rw [ih _ _ _ hjis, getList_setDuration,
          if_pos (show v = v ∧ t = t from ⟨rfl, rfl⟩)]
        exact get?_modIdx_ne i j (fun hh => hji hh.symm) _ _
      · exact ih s k j hjis

theorem pass2idx_nonzero (now : Int) (v : Version) (t : ReleaseType) :
    ∀ (is : List Nat), is.Nodup →
      ∀ (s : Releases) (k : Nat) (j : Nat), j ∈ is →
        (∀ i rel, (getList s v t).get? i = some rel → rel.date ≠ now) →
        ∀ rel', (getList (pass2idx (fun _ => now) v t is (s, k)).1 v t).get? j = some rel' →
          rel'.duration ≠ 0 := by
  intro is
  induction is with
  | nil => intro hnd s k j hj; exact absurd hj (List.not_mem_nil j)
  | cons i is ih =>
    intro hnd s k j hj hdate rel' hget
    have hnd2 : is.Nodup := (List.nodup_cons.mp hnd).2
    have hni : i ∉ is := (List.nodup_cons.mp hnd).1
    unfold pass2idx at hget
    split at hget
    · rename_i hg
      rcases List.mem_cons.mp hj with hji | hjis
      · subst hji
        rw [pass2idx_get_not_mem _ v t is s k j hni, hg] at hget
        exact absurd hget (by simp)
      · exact ih hnd2 s k j hjis hdate rel' hget
    · rename_i rel hg
      split at hget
      · rename_i hz
        rcases List.mem_cons.mp hj with hji | hjis
        · subst hji
          rw [pass2idx_get_not_mem _ v t is _ _ j hni, getList_setDuration,
            if_pos (show v = v ∧ t = t from ⟨rfl, rfl⟩),
            get?_modIdx_self, hg] at hget
          simp only [Option.map_some'] at hget
          injection hget with hget
          have hne := hdate j rel hg
          rw [← hget]
          show ¬ (now - rel.date = 0)
          omega
        · have hdate2 : ∀ i2 rel2,
              (getList (setDuration s v t now i) v t).get? i2 = some rel2 →
              rel2.date ≠ now :=
            date_transfer1 s _ v t now (datesOf_setDuration s v t now i v t) hdate
          exact ih hnd2 _ (k + 1) j hjis hdate2 rel' hget
      · rename_i hz
        rcases List.mem_cons.mp hj with hji | hjis
        · subst hji
          rw [pass2idx_get_not_mem _ v t is s k j hni, hg] at hget
          injection hget with hget
          rw [← hget]
          exact hz
        · exact ih hnd2 s k j hjis hdate rel' hget

theorem pass2_nonzero (now : Int) :
    ∀ (bs : List (Version × ReleaseType)) (s : Releases) (k : Nat),
      (∀ v t i rel, (getList s v t).get? i = some rel → rel.date ≠ now) →
      ∀ v t, ((v, t) ∈ bs ∨
          (∀ j rel', (getList s v t).get? j = some rel' → rel'.duration ≠ 0)) →
        ∀ j rel',
          (getList (pass2 (fun _ => now) bs (s, k)).1 v t).get? j = some rel' →
          rel'.duration ≠ 0 := by
  intro bs
  induction bs with
  | nil =>
    intro s k hdate v t hvt j rel' hget
    rcases hvt with h | h
    · exact absurd h (List.not_mem_nil _)
    · exact h j rel' hget
  | cons b bs ih =>
    intro s k hdate v t hvt j rel' hget
    simp only [pass2] at hget
    rcases hq : pass2bucketOn (fun _ => now) s b.1 b.2 k with ⟨s1, k1⟩
    rw [hq] at hget
    unfold pass2bucketOn at hq
    have hdats1 : ∀ v2 t2, datesOf s1 v2 t2 = datesOf s v2 t2 := by
      intro v2 t2
      have := datesOf_pass2idx (fun _ => now) b.1 b.2
        (List.range (getList s b.1 b.2).length) s k v2 t2
      rw [hq] at this
      exact this
    have hdate1 : ∀ v2 t2 i2 rel2,
        (getList s1 v2 t2).get? i2 = some rel2 → rel2.date ≠ now :=
      date_transfer s s1 now hdats1 hdate
    have hNZb : ∀ j2 rel2, (getList s1 b.1 b.2).get? j2 = some rel2 →
        rel2.duration ≠ 0 := by
      intro j2 rel2 hg2
      have hlt : j2 < (getList s1 b.1 b.2).length :=
        (List.get?_eq_some.mp hg2).1
      have hlen : (getList s1 b.1 b.2).length = (getList s b.1 b.2).length :=
        length_getList_eq_of_dates s s1 b.1 b.2 (hdats1 b.1 b.2)
      have hmem : j2 ∈ List.range (getList s b.1 b.2).length :=
        List.mem_range.mpr (hlen ▸ hlt)
      have := pass2idx_nonzero now b.1 b.2
        (List.range (getList s b.1 b.2).length) (List.nodup_range _)
        s k j2 hmem (fun i2 rel3 => hdate b.1 b.2 i2 rel3) rel2
      rw [hq] at this
      exact this hg2
    have hframe : ∀ v2 t2, ¬ (b.1 = v2 ∧ b.2 = t2) →
        getList s1 v2 t2 = getList s v2 t2 := by
      intro v2 t2 hne
      have := pass2idx_frame (fun _ => now) b.1 b.2
        (List.range (getList s b.1 b.2).length) s k v2 t2 hne
      rw [hq] at this
      exact this
    apply ih s1 k1 hdate1 v t ?_ j rel' hget
    by_cases hb : b = (v, t)
    · subst hb
      exact Or.inr hNZb
    · rcases hvt with hmem | hnz
      · rcases List.mem_cons.mp hmem with hh | hh
        · exact absurd hh.symm hb
        · exact Or.inl hh
      · refine Or.inr ?_
        have hne : ¬ (b.1 = v ∧ b.2 = t) := by
          intro hh
          exact hb (Prod.ext hh.1 hh.2)
        intro j2 rel2 hg2
        rw [hframe v t hne] at hg2
        exact hnz j2 rel2 hg2

theorem alookup_mem (k : String) (b : β) :
    ∀ l : List (String × β), alookup k l = some b → (k, b) ∈ l := by
  intro l
  induction l with
  | nil => intro h; exact absurd h (by simp [alookup])
  | cons p l ih =>
    rcases p with ⟨p1, p2⟩
    intro h
    unfold alookup at h
    split at h
    · rename_i hp
      injection h with h
      subst h
      cases hp
      exact List.mem_cons_self _ _
    · exact List.mem_cons_of_mem _ (ih h)

theorem mem_bucketsOf (r : Releases) (v : Version) (t : ReleaseType)
    (h : getList r v t ≠ []) : (v, t) ∈ bucketsOf r := by
  obtain ⟨inner, lst, h1, h2, -⟩ := getList_ne_nil r v t h
  have hm1 : (v, inner) ∈ r := alookup_mem v inner r h1
  have hm2 : (t, lst) ∈ inner := alookup_mem t lst inner h2
  unfold bucketsOf
  exact List.mem_bind.mpr ⟨(v, inner), hm1, List.mem_map.mpr ⟨(t, lst), hm2, rfl⟩⟩

/-- Every record reachable through `getList` is a member of the nested
lists of the ledger. -/
theorem getList_record_mem (r : Releases) (v : Version) (t : ReleaseType)
    (i : Nat) (rel : Release) (h : (getList r v t).get? i = some rel) :
    ∃ p ∈ r, ∃ q ∈ p.2, rel ∈ q.2 := by
  have hne : getList r v t ≠ [] := by
    intro he
    rw [he] at h
    exact absurd h (by simp)
  obtain ⟨inner, lst, h1, h2, -⟩ := getList_ne_nil r v t hne
  have hl : getList r v t = lst := by simp [getList, h1, h2]
  rw [hl] at h
  exact ⟨(v, inner), alookup_mem v inner r h1, (t, lst),
    alookup_mem t lst inner h2, List.get?_mem h⟩

/-- C3 (amended): if duration assignment completes (no version-parsing
panic) and the reference time `now` differs from the date of every record
stored in the ledger, then afterwards every release record in the entire
ledger has a non-unset (non-zero) duration. -/
theorem C3_all_durations_set (r r' : Releases) (now : Int)
    (hrun : r.setDurations now = some r')
    (hnow : ∀ p ∈ r, ∀ q ∈ p.2, ∀ rel ∈ q.2, rel.date ≠ now) :
    ∀ v t i rel, (getList r' v t).get? i = some rel → rel.duration ≠ 0 := by
  have hnow' : ∀ v t i rel, (getList r v t).get? i = some rel → rel.date ≠ now := by
    intro v t i rel h
    obtain ⟨p, hp, q, hq, hrel⟩ := getList_record_mem r v t i rel h
    exact hnow p hp q hq rel hrel
  unfold Releases.setDurations setDurationsClock at hrun
  cases hp : pass1 r (bucketsOf r) with
  | none => rw [hp] at hrun; exact absurd hrun (by simp)
  | some r1 =>
    rw [hp] at hrun
    injection hrun with hrun
    intro v t i rel hget
    rw [← hrun] at hget
    have hdate1 : ∀ v2 t2 i2 rel2,
        (getList r1 v2 t2).get? i2 = some rel2 → rel2.date ≠ now :=
      date_transfer r r1 now
        (fun v2 t2 => datesOf_pass1 (bucketsOf r) r r1 hp v2 t2) hnow'
    have hne1 : getList r1 v t ≠ [] := by
      intro he
      have hdats : datesOf (pass2 (fun _ => now) (bucketsOf r1) (r1, 0)).1 v t =
          datesOf r1 v t := datesOf_pass2 _ (bucketsOf r1) r1 0 v t
      have hlen := length_getList_eq_of_dates r1 _ v t hdats
      rw [he] at hlen
      simp only [List.length_nil] at hlen
      have hz : (getList (pass2 (fun _ => now) (bucketsOf r1) (r1, 0)).1 v t) = [] :=
        List.length_eq_zero.mp hlen
      rw [hz] at hget
      exact absurd hget (by simp)
    exact pass2_nonzero now (bucketsOf r1) r1 0 hdate1 v t
      (Or.inl (mem_bucketsOf r1 v t hne1)) i rel hget

/-- C3 counterexample: a ledger holding one beta release dated 5, closed
with `now = 5`, keeps duration 0 (still unset) after duration assignment;
the claim's unconditional "every record has a non-zero duration" is false. -/
theorem C3_counterexample :
    Releases.setDurations [("1.7", [("beta", [⟨5, 0⟩])])] 5 =
      some [("1.7", [("beta", [⟨5, 0⟩])])] := by decide

/-- C3 witness: the same ledger closed with `now = 7` gets duration 2. -/
theorem C3_all_durations_set_witness :
    Releases.setDurations [("1.7", [("beta", [⟨5, 0⟩])])] 7 =
      some [("1.7", [("beta", [⟨5, 2⟩])])] ∧
    (∀ p ∈ ([("1.7", [("beta", [⟨5, 0⟩])])] : Releases), ∀ q ∈ p.2,
      ∀ rel ∈ q.2, rel.date ≠ 7) ∧
    (∀ v t i rel,
      (getList [("1.7", [("beta", [⟨5, 2⟩])])] v t).get? i = some rel →
      rel.duration ≠ 0) :=
  ⟨by decide, by decide,
    C3_all_durations_set [("1.7", [("beta", [⟨5, 0⟩])])]
      [("1.7", [("beta", [⟨5, 2⟩])])] 7 (by decide) (by decide)⟩

/-- C5 (amended): when every wall-clock read of pass 2 returns the same
value `now`, duration assignment equals the single-`now` operation — the
result is a function of the ledger and that one value. -/
theorem C5_constant_clock (r : Releases) (clock : Nat → Int) (now : Int)
    (h : ∀ k, clock k = now) :
    setDurationsClock r clock = r.setDurations now := by
  have he : clock = fun _ => now := funext h
  rw [he]
  rfl

/-- C5 counterexample: two clocks that agree on their first read produce
different ledgers, so the operation does not read the reference time
exactly once per invocation — it reads the clock once per pass-2 closure. -/
theorem C5_counterexample :
    (fun k => if k = 0 then (100 : Int) else 999) 0 = 100 ∧
    setDurationsClock [("1.7", [("beta", [⟨0, 0⟩])]), ("1.8", [("beta", [⟨0, 0⟩])])]
        (fun k => if k = 0 then 100 else 999) ≠
      setDurationsClock [("1.7", [("beta", [⟨0, 0⟩])]), ("1.8", [("beta", [⟨0, 0⟩])])]
        (fun _ => 100) := by
  exact ⟨rfl, by decide⟩

/-- C5 witness: a constant clock at value 5. -/
theorem C5_constant_clock_witness :
    (∀ k : Nat, (fun _ => (5 : Int)) k = 5) ∧
    setDurationsClock [("1.7", [("beta", [⟨0, 0⟩])])] (fun _ => 5) =
      Releases.setDurations [("1.7", [("beta", [⟨0, 0⟩])])] 5 :=
  ⟨fun _ => rfl, C5_constant_clock _ _ 5 (fun _ => rfl)⟩

/-! ## Version-string parsing lemmas -/

theorem digit_ne_dash (c : Char) (h : isDigitChar c = true) : ¬ c = '-' :=
  fun hh => by rw [hh] at h; exact absurd h (by decide)

theorem digit_ne_plus (c : Char) (h : isDigitChar c = true) : ¬ c = '+' :=
  fun hh => by rw [hh] at h; exact absurd h (by decide)

theorem digit_ne_dot (c : Char) (h : isDigitChar c = true) : ¬ c = '.' :=
  fun hh => by rw [hh] at h; exact absurd h (by decide)

theorem parseSign_digit (c : Char) (r : List Char) (h : isDigitChar c = true) :
    parseSign (c :: r) = (false, c :: r) := by
  show (if c = '-' then (true, r)
    else if c = '+' then (false, r) else (false, c :: r)) = (false, c :: r)
  rw [if_neg (digit_ne_dash c h), if_neg (digit_ne_plus c h)]

theorem parseInt64_digits (ds : List Char) (h0 : ds ≠ [])
    (hd : ds.all isDigitChar = true) :
    parseInt64 (String.mk ds) =
      if natOfDigits ds ≤ 2 ^ 63 - 1 then some ((natOfDigits ds : Int))
      else none := by
  cases ds with
  | nil => exact absurd rfl h0
  | cons c r =>
    have hc : isDigitChar c = true := by
      rw [List.all_cons, Bool.and_eq_true] at hd
      exact hd.1
    show parseIntCore (parseSign (c :: r)).1 (parseSign (c :: r)).2 = _
    rw [parseSign_digit c r hc]
    unfold parseIntCore
    rw [if_neg (show ¬ (c :: r) = [] by simp)]
    simp only [hd, Bool.not_true, Bool.false_eq_true, if_false]

theorem splitAtDot_append (a b : List Char) (ha : ∀ c ∈ a, ¬ c = '.') :
    splitAtDot (a ++ '.' :: b) = some (a, b) := by
  induction a with
  | nil => simp [splitAtDot]
  | cons c a ih =>
    have hc : ¬ c = '.' := ha c (List.mem_cons_self c a)
    have ha2 : ∀ c2 ∈ a, ¬ c2 = '.' := fun c2 h2 => ha c2 (List.mem_cons_of_mem c h2)
    have ih2 : splitAtDot (a ++ '.' :: b) = some (a, b) := ih ha2
    simp only [List.cons_append, splitAtDot, if_neg hc, List.append_eq, ih2,
      Option.map_some']

theorem parseVersion_digits (a b : List Char) (ha : a ≠ []) (hb : b ≠ [])
    (hda : a.all isDigitChar = true) (hdb : b.all isDigitChar = true)
    (hmaj : natOfDigits a ≤ 2 ^ 63 - 1) (hmin : natOfDigits b ≤ 2 ^ 63 - 1) :
    parseVersion (String.mk (a ++ '.' :: b)) =
      some ((natOfDigits a : Int), (natOfDigits b : Int)) := by
  have hdot : ∀ c ∈ a, ¬ c = '.' := fun c hc =>
    digit_ne_dot c (by
      rw [List.all_eq_true] at hda
      exact hda c hc)
  unfold parseVersion
  show (match splitAtDot (a ++ '.' :: b) with
    | none => none
    | some q =>
      match parseInt64 (String.mk q.1), parseInt64 (String.mk q.2) with
      | some maj, some mi => some (maj, mi)
      | _, _ => none) = _
  rw [splitAtDot_append a b hdot]
  show (match parseInt64 (String.mk a), parseInt64 (String.mk b) with
    | some maj, some mi => some (maj, mi)
    | _, _ => none) = _
  rw [parseInt64_digits a ha hda, parseInt64_digits b hb hdb,
    if_pos hmaj, if_pos hmin]

theorem wrap64_small (n : Int) (h1 : -(2 ^ 63) ≤ n) (h2 : n < 2 ^ 63) :
    wrap64 n = n := by
  unfold wrap64
  have e1 : (2 : Int) ^ 63 = 9223372036854775808 := by norm_num
  have e2 : (2 : Int) ^ 64 = 18446744073709551616 := by norm_num
  rw [e1, e2] at *
  rw [Int.emod_eq_of_lt (by omega) (by omega)]
  omega

theorem takeWhile_digits_append (a b : List Char) (ha : a.all isDigitChar = true) :
    (a ++ '.' :: b).takeWhile isDigitChar = a := by
  induction a with
  | nil =>
    have : isDigitChar '.' = false := by decide
    simp [List.takeWhile_cons, this]
  | cons c a ih =>
    rw [List.all_cons, Bool.and_eq_true] at ha
    simp [List.takeWhile_cons, ha.1, ih ha.2]

/-- C9 (amended): for every version identifier captured by the tag
interpreter's version pattern (`<digits>.<digits>`) whose components fit
the signed 64-bit range (minor at most 2^63 − 2, so that minor + 1 is
representable), `nextVersion` and `prevVersion` complete without the
`parseVersion` panic and return `major.(minor+1)` and `major.(minor−1)`. -/
theorem C9_next_prev_version (a b : List Char) (ha : a ≠ []) (hb : b ≠ [])
    (hda : a.all isDigitChar = true) (hdb : b.all isDigitChar = true)
    (hmaj : natOfDigits a ≤ 2 ^ 63 - 1) (hmin : natOfDigits b ≤ 2 ^ 63 - 2) :
    versionShape (String.mk (a ++ '.' :: b)) = true ∧
    nextVersion (String.mk (a ++ '.' :: b)) =
      some (formatVersion (natOfDigits a) ((natOfDigits b : Int) + 1)) ∧
    prevVersion (String.mk (a ++ '.' :: b)) =
      some (formatVersion (natOfDigits a) ((natOfDigits b : Int) - 1)) := by
  have hminle : natOfDigits b ≤ 2 ^ 63 - 1 := by
    have hp : (2 : Nat) ^ 63 - 2 ≤ 2 ^ 63 - 1 := by norm_num
    exact hmin.trans hp
  have hpv := parseVersion_digits a b ha hb hda hdb hmaj hminle
  have e63 : (2 : Int) ^ 63 = 9223372036854775808 := by norm_num
  have hge : (0 : Int) ≤ (natOfDigits b : Int) := Int.natCast_nonneg _
  have hbig : (natOfDigits b : Int) ≤ 9223372036854775806 := by
    have h2 : natOfDigits b ≤ 9223372036854775806 := by
      have hp : (2 : Nat) ^ 63 - 2 = 9223372036854775806 := by norm_num
      exact hmin.trans (le_of_eq hp)
    exact_mod_cast h2
  refine ⟨?_, ?_, ?_⟩
  · unfold versionShape
    show (!((String.mk (a ++ '.' :: b)).data.takeWhile isDigitChar).isEmpty &&
      match (String.mk (a ++ '.' :: b)).data.drop
          ((String.mk (a ++ '.' :: b)).data.takeWhile isDigitChar).length with
      | '.' :: rest => !rest.isEmpty && rest.all isDigitChar
      | _ => false) = true
    rw [show (String.mk (a ++ '.' :: b)).data = a ++ '.' :: b from rfl,
      takeWhile_digits_append a b hda, List.drop_left]
    cases b with
    | nil => exact absurd rfl hb
    | cons c r =>
      cases a with
      | nil => exact absurd rfl ha
      | cons c2 r2 =>
        simp [hdb]
  · unfold nextVersion
    rw [hpv]
    show some (formatVersion (natOfDigits a) (wrap64 ((natOfDigits b : Int) + 1))) = _
    rw [wrap64_small ((natOfDigits b : Int) + 1) (by rw [e63]; omega)
      (by rw [e63]; omega)]
  · unfold prevVersion
    rw [hpv]
    show some (formatVersion (natOfDigits a) (wrap64 ((natOfDigits b : Int) - 1))) = _
    rw [wrap64_small ((natOfDigits b : Int) - 1) (by rw [e63]; omega)
      (by rw [e63]; omega)]

/-- C9 counterexample: "99999999999999999999.1" is captured by the version
pattern, but its major component overflows int64, so `parseVersion` hits
its panic branch and `nextVersion` / `prevVersion` abort. -/
theorem C9_counterexample :
    versionShape "99999999999999999999.1" = true ∧
    nextVersion "99999999999999999999.1" = none ∧
    prevVersion "99999999999999999999.1" = none := by decide

/-- C9 witness: the version "1.7". -/
theorem C9_next_prev_version_witness :
    (['1'] : List Char) ≠ [] ∧ (['7'] : List Char) ≠ [] ∧
    (['1'] : List Char).all isDigitChar = true ∧
    (['7'] : List Char).all isDigitChar = true ∧
    natOfDigits ['1'] ≤ 2 ^ 63 - 1 ∧ natOfDigits ['7'] ≤ 2 ^ 63 - 2 ∧
    (versionShape (String.mk (['1'] ++ '.' :: ['7'])) = true ∧
     nextVersion (String.mk (['1'] ++ '.' :: ['7'])) =
       some (formatVersion (natOfDigits ['1']) ((natOfDigits ['7'] : Int) + 1)) ∧
     prevVersion (String.mk (['1'] ++ '.' :: ['7'])) =
       some (formatVersion (natOfDigits ['1']) ((natOfDigits ['7'] : Int) - 1))) :=
  ⟨by decide, by decide, by decide, by decide, by decide, by decide,
    C9_next_prev_version ['1'] ['7'] (by decide) (by decide) (by decide)
      (by decide) (by decide) (by decide)⟩

/-! ## Error propagation of MakeReleases -/

/-- `time.Parse` leniencies reproduced by the model: weekday and month
names match case-insensitively, a fractional second not in the layout is
consumed without moving the instant, and a period with no following digit
still fails; a lowercase-weekday tag line therefore yields a ledger, not
an error. -/
theorem parseGoDate_accepts_case_and_fraction :
    parseGoDate "mon aug 15 14:09:32.737 2016 -0700" =
      parseGoDate "Mon Aug 15 14:09:32 2016 -0700" ∧
    parseGoDate "MON AUG 15 14:09:32,5 2016 -0700" =
      parseGoDate "Mon Aug 15 14:09:32 2016 -0700" ∧
    (parseGoDate "Mon Aug 15 14:09:32 2016 -0700").isSome = true ∧
    parseGoDate "Mon Aug 15 14:09:32. 2016 -0700" = none ∧
    makeReleases "refs/tags/go1.7\tmon Aug 15 14:09:32 2016 -0700\n" =
      some (Except.ok [("1.7", [(GARelease, [⟨1471295372, 0⟩])])]) := by
  refine ⟨by decide, by decide, by decide, by decide, by decide⟩

/-- C7 (code divergence): the tag "go1.7.10", whose patch sequence number
has two digits, does not match the source's pattern at all — the regex
character class `[0-9+]` admits a single digit (or a literal plus), not a
digit string — so the line is silently dropped and `MakeReleases` returns
an empty ledger, while the single-digit "go1.7.3" is matched with
sequence capture "3". -/
theorem C7_multidigit_seq_dropped :
    findTags "refs/tags/go1.7.10\tTue Oct 18 17:02:28 2016 -0700\n" = [] ∧
    makeReleases "refs/tags/go1.7.10\tTue Oct 18 17:02:28 2016 -0700\n" =
      some (Except.ok []) ∧
    findTags "refs/tags/go1.7.3\tTue Oct 18 17:02:28 2016 -0700\n" =
      [{ version := "1.7", typ := ".", numStr := "3",
         dateStr := "Tue Oct 18 17:02:28 2016 -0700" }] := by
  refine ⟨by decide, by decide, by decide⟩

/-! ## Commuting pass-1 writes -/

theorem setDuration_comm (s : Releases) (w1 w2 : W)
    (h : w1.v = w2.v → w1.t = w2.t → w1.i = w2.i → w1.d = w2.d) :
    applyW (applyW s w1) w2 = applyW (applyW s w2) w1 := by
  rcases w1 with ⟨v1, t1, i1, d1⟩
  rcases w2 with ⟨v2, t2, i2, d2⟩
  simp only [applyW, setDuration] at h ⊢
  by_cases hv : v1 = v2
  · subst hv
    rw [amod_amod_self, amod_amod_self]
    apply amod_congr
    intro inner
    by_cases ht : t1 = t2
    · subst ht
      rw [amod_amod_self, amod_amod_self]
      apply amod_congr
      intro lst
      by_cases hi : i1 = i2
      · subst hi
        have hd : d1 = d2 := h rfl rfl rfl
        subst hd
        rfl
      · exact modIdx_modIdx_ne i2 i1 (fun hh => hi hh.symm) _ _ lst
    · exact amod_amod_ne t2 t1 (fun hh => ht hh.symm) _ _ inner
  · exact amod_amod_ne v2 v1 (fun hh => hv hh.symm) _ _ s

theorem datesOf_applyWs (ws : List W) :
    ∀ (s : Releases) (v' : Version) (t' : ReleaseType),
      datesOf (applyWs s ws) v' t' = datesOf s v' t' := by
  induction ws with
  | nil => intro s v' t'; rfl
  | cons w ws ih =>
    intro s v' t'
    show datesOf (applyWs (applyW s w) ws) v' t' = _
    rw [ih, applyW, datesOf_setDuration]

theorem applyWs_append (s : Releases) (ws1 ws2 : List W) :
    applyWs s (ws1 ++ ws2) = applyWs (applyWs s ws1) ws2 :=
  List.foldl_append _ _ _ _

theorem applyW_applyWs_comm (w : W) :
    ∀ (ws : List W) (s : Releases),
      (∀ w2 ∈ ws, w.v = w2.v → w.t = w2.t → w.i = w2.i → w.d = w2.d) →
      applyWs (applyW s w) ws = applyW (applyWs s ws) w := by
  intro ws
  induction ws with
  | nil => intro s hc; rfl
  | cons w2 ws ih =>
    intro s hc
    show applyWs (applyW (applyW s w) w2) ws = _
    rw [setDuration_comm s w w2 (hc w2 (List.mem_cons_self _ _))]
    exact ih (applyW s w2) (fun w3 h3 => hc w3 (List.mem_cons_of_mem _ h3))

theorem applyWs_comm (ws1 : List W) :
    ∀ (ws2 : List W), Compat ws1 ws2 →
      ∀ s, applyWs (applyWs s ws1) ws2 = applyWs (applyWs s ws2) ws1 := by
  induction ws1 with
  | nil => intro ws2 hc s; rfl
  | cons w ws1 ih =>
    intro ws2 hc s
    show applyWs (applyWs (applyW s w) ws1) ws2 = applyWs (applyW (applyWs s ws2) w) ws1
    rw [ih ws2 (fun w1 h1 => hc w1 (List.mem_cons_of_mem _ h1)) (applyW s w),
      applyW_applyWs_comm w ws2 s (hc w (List.mem_cons_self _ _))]

theorem pass1bucketAux_tail (v : Version) (t : ReleaseType) :
    ∀ (ds : List Int) (i : Nat) (s : Releases),
      pass1bucketAux v t (i + 1) ds s = some (applyWs s (selfWs v t i ds)) := by
  intro ds
  induction ds with
  | nil => intro i s; rfl
  | cons d ds ih =>
    intro i s
    have h1 : ¬ (t = BetaRelease ∧ i + 1 = 0) := fun hh => Nat.succ_ne_zero i hh.2
    have h2 : ¬ (t = RCRelease ∧ i + 1 = 0) := fun hh => Nat.succ_ne_zero i hh.2
    have h3 : ¬ (t = GARelease ∧ i + 1 = 0) := fun hh => Nat.succ_ne_zero i hh.2
    have h4 : ¬ (i + 1 = 0) := Nat.succ_ne_zero i
    have hrec : pass1rec s v t (i + 1) d = some (setDuration s v t d i) := by
      unfold pass1rec
      rw [if_neg h1, if_neg h2, if_neg h3, if_neg h4]
      rfl
    show (match pass1rec s v t (i + 1) d with
      | none => none
      | some r1 => pass1bucketAux v t (i + 1 + 1) ds r1) = _
    rw [hrec]
    show pass1bucketAux v t (i + 1 + 1) ds (setDuration s v t d i) = _
    rw [ih (i + 1) (setDuration s v t d i)]
    rfl

theorem setLastDuration_eq_applyW (s : Releases) (v : Version) (t : ReleaseType)
    (d : Int) : setLastDuration s v t d = applyWs s (lastW s v t d) := by
  unfold setLastDuration lastW
  by_cases h0 : (getList s v t).length = 0
  · rw [if_pos h0, if_pos h0]; rfl
  · rw [if_neg h0, if_neg h0]; rfl

theorem lastW_congr (s r : Releases) (v : Version) (t : ReleaseType) (d : Int)
    (h : datesOf s v t = datesOf r v t) : lastW s v t d = lastW r v t d := by
  unfold lastW
  rw [length_getList_eq_of_dates r s v t h]

theorem pass1bucketOn_eq_writes (r : Releases) (v : Version) (t : ReleaseType)
    (s : Releases) (hs : ∀ v' t', datesOf s v' t' = datesOf r v' t') :
    pass1bucketOn s v t = (writesOf r v t).map (applyWs s) := by
  have hd : (getList s v t).map Release.date = (getList r v t).map Release.date :=
    hs v t
  cases hdl : (getList r v t).map Release.date with
  | nil =>
    have hw : writesOf r v t = some [] := by
      simp only [writesOf, hdl]
    have hlen : (getList s v t).map Release.date = [] := by rw [hd, hdl]
    unfold pass1bucketOn
    rw [hlen, hw]
    rfl
  | cons d0 rest =>
    unfold pass1bucketOn
    rw [hd, hdl]
    by_cases hb : t = BetaRelease
    · subst hb
      have hw : writesOf r v BetaRelease = some (selfWs v BetaRelease 0 rest) := by
        simp only [writesOf, hdl]
        rw [if_pos trivial]
      have hrec : pass1rec s v BetaRelease 0 d0 = some s := by
        unfold pass1rec
        rw [if_pos (show BetaRelease = BetaRelease ∧ (0 : Nat) = 0 from ⟨rfl, rfl⟩)]
      rw [hw, Option.map_some']
      show (match pass1rec s v BetaRelease 0 d0 with
        | none => none
        | some r1 => pass1bucketAux v BetaRelease 1 rest r1) = _
      rw [hrec]
      exact pass1bucketAux_tail v BetaRelease rest 0 s
    · by_cases hr : t = RCRelease
      · subst hr
        have hw : writesOf r v RCRelease =
            some (lastW r v BetaRelease d0 ++ selfWs v RCRelease 0 rest) := by
          simp only [writesOf, hdl]
          rw [if_neg (show ¬ (RCRelease = BetaRelease) by decide), if_pos trivial]
        have hrec : pass1rec s v RCRelease 0 d0 =
            some (setLastDuration s v BetaRelease d0) := by
          unfold pass1rec
          rw [if_neg (show ¬ (RCRelease = BetaRelease ∧ (0 : Nat) = 0) by decide),
            if_pos (show RCRelease = RCRelease ∧ (0 : Nat) = 0 from ⟨rfl, rfl⟩)]
        rw [hw, Option.map_some', applyWs_append]
        have hsl : setLastDuration s v BetaRelease d0 =
            applyWs s (lastW r v BetaRelease d0) := by
          rw [setLastDuration_eq_applyW,
            lastW_congr s r v BetaRelease d0 (hs v BetaRelease)]
        show (match pass1rec s v RCRelease 0 d0 with
          | none => none
          | some r1 => pass1bucketAux v RCRelease 1 rest r1) = _
        rw [hrec, hsl]
        exact pass1bucketAux_tail v RCRelease rest 0 _
      · by_cases hg : t = GARelease
        · subst hg
          cases hp : prevVersion v with
          | none =>
            have hw : writesOf r v GARelease = none := by
              simp only [writesOf, hdl]
              rw [if_pos trivial, hp, if_neg (show ¬ (GARelease = BetaRelease) by decide),
                if_neg (show ¬ (GARelease = RCRelease) by decide)]
            have hrec : pass1rec s v GARelease 0 d0 = none := by
              unfold pass1rec
              rw [if_neg (show ¬ (GARelease = BetaRelease ∧ (0 : Nat) = 0) by decide),
                if_neg (show ¬ (GARelease = RCRelease ∧ (0 : Nat) = 0) by decide),
                if_pos (show GARelease = GARelease ∧ (0 : Nat) = 0 from ⟨rfl, rfl⟩), hp]
            rw [hw]
            show (match pass1rec s v GARelease 0 d0 with
              | none => none
              | some r1 => pass1bucketAux v GARelease 1 rest r1) = _
            rw [hrec]
            rfl
          | some pv =>
            have hw : writesOf r v GARelease =
                some (lastW r v RCRelease d0 ++ lastW r pv GARelease d0 ++
                  selfWs v GARelease 0 rest) := by
              simp only [writesOf, hdl]
              rw [if_pos trivial, hp, if_neg (show ¬ (GARelease = BetaRelease) by decide),
                if_neg (show ¬ (GARelease = RCRelease) by decide)]
            have hrec : pass1rec s v GARelease 0 d0 =
                some (setLastDuration (setLastDuration s v RCRelease d0)
                  pv GARelease d0) := by
              unfold pass1rec
              rw [if_neg (show ¬ (GARelease = BetaRelease ∧ (0 : Nat) = 0) by decide),
                if_neg (show ¬ (GARelease = RCRelease ∧ (0 : Nat) = 0) by decide),
                if_pos (show GARelease = GARelease ∧ (0 : Nat) = 0 from ⟨rfl, rfl⟩), hp]
            rw [hw, Option.map_some', applyWs_append, applyWs_append]
            have hsl1 : setLastDuration s v RCRelease d0 =
                applyWs s (lastW r v RCRelease d0) := by
              rw [setLastDuration_eq_applyW,
                lastW_congr s r v RCRelease d0 (hs v RCRelease)]
            have hdmid : datesOf (applyWs s (lastW r v RCRelease d0)) pv GARelease =
                datesOf r pv GARelease := by
              rw [datesOf_applyWs, hs pv GARelease]
            have hsl2 : setLastDuration (applyWs s (lastW r v RCRelease d0))
                pv GARelease d0 =
                applyWs (applyWs s (lastW r v RCRelease d0))
                  (lastW r pv GARelease d0) := by
              rw [setLastDuration_eq_applyW,
                lastW_congr _ r pv GARelease d0 hdmid]
            show (match pass1rec s v GARelease 0 d0 with
              | none => none
              | some r1 => pass1bucketAux v GARelease 1 rest r1) = _
            rw [hrec, hsl1, hsl2]
            exact pass1bucketAux_tail v GARelease rest 0 _
        · have hw : writesOf r v t = none := by
            simp only [writesOf, hdl]
            rw [if_neg hb, if_neg hr, if_neg hg]
          have hrec : pass1rec s v t 0 d0 = none := by
            unfold pass1rec
            rw [if_neg (fun hh => hb hh.1), if_neg (fun hh => hr hh.1),
              if_neg (fun hh => hg hh.1), if_pos rfl]
          rw [hw]
          show (match pass1rec s v t 0 d0 with
            | none => none
            | some r1 => pass1bucketAux v t 1 rest r1) = _
          rw [hrec]
          rfl

theorem mem_selfWs (v : Version) (t : ReleaseType) :
    ∀ (ds : List Int) (i : Nat) (w : W), w ∈ selfWs v t i ds →
      w.v = v ∧ w.t = t ∧
        ∃ k dk, ds.get? k = some dk ∧ w.i = i + k ∧ w.d = dk := by
  intro ds
  induction ds with
  | nil => intro i w h; exact absurd h (List.not_mem_nil w)
  | cons d ds ih =>
    intro i w h
    rcases List.mem_cons.mp h with he | hm
    · subst he
      refine ⟨rfl, rfl, 0, d, rfl, ?_, rfl⟩
      show i = i + 0
      omega
    · obtain ⟨h1, h2, k, dk, hk, hik, hdk⟩ := ih (i + 1) w hm
      refine ⟨h1, h2, k + 1, dk, hk, by omega, hdk⟩

theorem mem_lastW (r : Releases) (v : Version) (t : ReleaseType) (d : Int) (w : W)
    (h : w ∈ lastW r v t d) :
    (getList r v t).length ≠ 0 ∧ w = ⟨v, t, (getList r v t).length - 1, d⟩ := by
  unfold lastW at h
  by_cases h0 : (getList r v t).length = 0
  · rw [if_pos h0] at h
    exact absurd h (List.not_mem_nil w)
  · rw [if_neg h0] at h
    exact ⟨h0, List.mem_singleton.mp h⟩

/-- Every write of a bucket's write list either closes a non-final record
of its own target bucket with that bucket's next date (the default case),
or closes the final record of its target bucket with the head date of the
iterated bucket, the target being the same version's betas (from rc1),
the same version's rcs (from the .0 release) or the previous version's
GA list. -/
theorem mem_writesOf (r : Releases) (v : Version) (t : ReleaseType)
    (ws : List W) (hw : writesOf r v t = some ws) (w : W) (hm : w ∈ ws) :
    (w.i + 1 < (getList r w.v w.t).length ∧
      ((getList r w.v w.t).map Release.date).get? (w.i + 1) = some w.d ∧
      w.v = v ∧ w.t = t) ∨
    (w.i = (getList r w.v w.t).length - 1 ∧ (getList r w.v w.t).length ≠ 0 ∧
      ((getList r v t).map Release.date).get? 0 = some w.d ∧
      getList r v t ≠ [] ∧
      ((t = RCRelease ∧ w.t = BetaRelease ∧ w.v = v) ∨
       (t = GARelease ∧ w.t = RCRelease ∧ w.v = v) ∨
       (t = GARelease ∧ w.t = GARelease ∧ prevVersion v = some w.v))) := by
  have hself : ∀ d0 rest, (getList r v t).map Release.date = d0 :: rest →
      w ∈ selfWs v t 0 rest →
      (w.i + 1 < (getList r w.v w.t).length ∧
        ((getList r w.v w.t).map Release.date).get? (w.i + 1) = some w.d ∧
        w.v = v ∧ w.t = t) := by
    intro d0 rest hdl hmem
    obtain ⟨h1, h2, k, dk, hk, hik, hdk⟩ := mem_selfWs v t rest 0 w hmem
    have hik' : w.i = k := by omega
    have hlt : k < rest.length := (List.get?_eq_some.mp hk).1
    have hlen : (getList r w.v w.t).length = rest.length + 1 := by
      rw [h1, h2]
      have := congrArg List.length hdl
      simpa using this
    refine ⟨by omega, ?_, h1, h2⟩
    rw [h1, h2, hdl, hik']
    show rest.get? k = some w.d
    rw [hk, hdk]
  have hhead : ∀ d0 rest, (getList r v t).map Release.date = d0 :: rest →
      ((getList r v t).map Release.date).get? 0 = some d0 ∧ getList r v t ≠ [] := by
    intro d0 rest hdl
    constructor
    · rw [hdl]; rfl
    · intro he
      rw [he] at hdl
      exact absurd hdl (by simp)
  have hlast : ∀ (v2 : Version) (t2 : ReleaseType) (d0 : Int),
      w ∈ lastW r v2 t2 d0 →
      w.i = (getList r w.v w.t).length - 1 ∧ (getList r w.v w.t).length ≠ 0 ∧
        w.d = d0 ∧ w.v = v2 ∧ w.t = t2 := by
    intro v2 t2 d0 hmem
    obtain ⟨hn0, he⟩ := mem_lastW r v2 t2 d0 w hmem
    subst he
    exact ⟨rfl, hn0, rfl, rfl, rfl⟩
  cases hdl : (getList r v t).map Release.date with
  | nil =>
    simp only [writesOf, hdl] at hw
    injection hw with hw
    rw [← hw] at hm
    exact absurd hm (List.not_mem_nil w)
  | cons d0 rest =>
    obtain ⟨hd0, hne⟩ := hhead d0 rest hdl
    by_cases hb : t = BetaRelease
    · subst hb
      simp only [writesOf, hdl] at hw
      rw [if_pos trivial] at hw
      injection hw with hw
      rw [← hw] at hm
      exact Or.inl (hself d0 rest hdl hm)
    · by_cases hr : t = RCRelease
      · subst hr
        simp only [writesOf, hdl] at hw
        rw [if_neg (show ¬ (RCRelease = BetaRelease) by decide),
          if_pos trivial] at hw
        injection hw with hw
        rw [← hw] at hm
        rcases List.mem_append.mp hm with hm1 | hm2
        · obtain ⟨hi1, hi2, hi3, hi4, hi5⟩ := hlast v BetaRelease d0 hm1
          exact Or.inr ⟨hi1, hi2, (by rw [hi3]; rfl : (d0 :: rest).get? 0 = some w.d),
            hne, Or.inl ⟨rfl, hi5, hi4⟩⟩
        · exact Or.inl (hself d0 rest hdl hm2)
      · by_cases hg : t = GARelease
        · subst hg
          cases hp : prevVersion v with
          | none =>
            simp only [writesOf, hdl] at hw
            rw [if_pos trivial, hp, if_neg (show ¬ (GARelease = BetaRelease) by decide),
              if_neg (show ¬ (GARelease = RCRelease) by decide)] at hw
            exact absurd hw (by simp)
          | some pv =>
            simp only [writesOf, hdl] at hw
            rw [if_pos trivial, hp, if_neg (show ¬ (GARelease = BetaRelease) by decide),
              if_neg (show ¬ (GARelease = RCRelease) by decide)] at hw
            injection hw with hw
            rw [← hw] at hm
            rcases List.mem_append.mp hm with hm1 | hm2
            · rcases List.mem_append.mp hm1 with hm3 | hm4
              · obtain ⟨hi1, hi2, hi3, hi4, hi5⟩ := hlast v RCRelease d0 hm3
                exact Or.inr ⟨hi1, hi2, (by rw [hi3]; rfl : (d0 :: rest).get? 0 = some w.d),
                  hne, Or.inr (Or.inl ⟨rfl, hi5, hi4⟩)⟩
              · obtain ⟨hi1, hi2, hi3, hi4, hi5⟩ := hlast pv GARelease d0 hm4
                exact Or.inr ⟨hi1, hi2, (by rw [hi3]; rfl : (d0 :: rest).get? 0 = some w.d),
                  hne, Or.inr (Or.inr ⟨rfl, hi5, (by rw [hi4] : some pv = some w.v)⟩)⟩
            · exact Or.inl (hself d0 rest hdl hm2)
        · simp only [writesOf, hdl] at hw
          rw [if_neg hb, if_neg hr, if_neg hg] at hw
          exact absurd hw (by simp)

/-- Writes of two buckets never disagree: across distinct buckets all
shared targets are impossible except for the previous-GA closure, which
the injectivity hypothesis rules out; within one bucket a target
determines the write. -/
theorem compat_writesOf (r : Releases) (x y : Version × ReleaseType)
    (wsx wsy : List W)
    (hx : writesOf r x.1 x.2 = some wsx) (hy : writesOf r y.1 y.2 = some wsy)
    (hinj : x.2 = GARelease → y.2 = GARelease →
      getList r x.1 GARelease ≠ [] → getList r y.1 GARelease ≠ [] →
      prevVersion x.1 = prevVersion y.1 → x.1 = y.1) :
    Compat wsx wsy := by
  intro w1 hw1 w2 hw2 hv ht hi
  have hL : (getList r w2.v w2.t).length = (getList r w1.v w1.t).length := by
    rw [← hv, ← ht]
  rcases mem_writesOf r x.1 x.2 wsx hx w1 hw1 with
    ⟨ha1, ha2, ha3, ha4⟩ | ⟨hb1, hb2, hb3, hb4, hprov1⟩
  · rcases mem_writesOf r y.1 y.2 wsy hy w2 hw2 with
      ⟨hc1, hc2, hc3, hc4⟩ | ⟨hd1, hd2, hd3, hd4, hprov2⟩
    · have he : ((getList r w1.v w1.t).map Release.date).get? (w1.i + 1) =
          some w2.d := by
        rw [hv, ht, hi]
        exact hc2
      exact Option.some.inj (ha2.symm.trans he)
    · exfalso
      omega
  · rcases mem_writesOf r y.1 y.2 wsy hy w2 hw2 with
      ⟨hc1, hc2, hc3, hc4⟩ | ⟨hd1, hd2, hd3, hd4, hprov2⟩
    · exfalso
      omega
    · have hbx : x.1 = y.1 ∧ x.2 = y.2 := by
        rcases hprov1 with ⟨p1a, p1b, p1c⟩ | ⟨p1a, p1b, p1c⟩ | ⟨p1a, p1b, p1c⟩ <;>
          rcases hprov2 with ⟨p2a, p2b, p2c⟩ | ⟨p2a, p2b, p2c⟩ | ⟨p2a, p2b, p2c⟩
        · exact ⟨p1c ▸ p2c ▸ hv, p1a.trans p2a.symm⟩
        · rw [p1b, p2b] at ht; exact absurd ht (by decide)
        · rw [p1b, p2b] at ht; exact absurd ht (by decide)
        · rw [p1b, p2b] at ht; exact absurd ht (by decide)
        · exact ⟨p1c ▸ p2c ▸ hv, p1a.trans p2a.symm⟩
        · rw [p1b, p2b] at ht; exact absurd ht (by decide)
        · rw [p1b, p2b] at ht; exact absurd ht (by decide)
        · rw [p1b, p2b] at ht; exact absurd ht (by decide)
        · refine ⟨?_, p1a.trans p2a.symm⟩
          have hpp : prevVersion x.1 = prevVersion y.1 := by
            rw [p1c, p2c, hv]
          have hne1 : getList r x.1 GARelease ≠ [] := by rw [← p1a]; exact hb4
          have hne2 : getList r y.1 GARelease ≠ [] := by rw [← p2a]; exact hd4
          exact hinj p1a p2a hne1 hne2 hpp
      obtain ⟨hxy1, hxy2⟩ := hbx
      have he : ((getList r x.1 x.2).map Release.date).get? 0 = some w2.d := by
        rw [hxy1, hxy2]
        exact hd3
      exact Option.some.inj (hb3.symm.trans he)

theorem pass1_cons_none (s : Releases) (b : Version × ReleaseType)
    (bs : List (Version × ReleaseType)) (h : pass1bucketOn s b.1 b.2 = none) :
    pass1 s (b :: bs) = none := by
  simp only [pass1, h]

theorem pass1_cons_some (s s1 : Releases) (b : Version × ReleaseType)
    (bs : List (Version × ReleaseType)) (h : pass1bucketOn s b.1 b.2 = some s1) :
    pass1 s (b :: bs) = pass1 s1 bs := by
  simp only [pass1, h]

theorem datesOf_pass1bucketOn (s s1 : Releases) (v : Version) (t : ReleaseType)
    (h : pass1bucketOn s v t = some s1) (v' : Version) (t' : ReleaseType) :
    datesOf s1 v' t' = datesOf s v' t' := by
  unfold pass1bucketOn at h
  exact datesOf_pass1bucketAux v t _ 0 s s1 h v' t'

theorem pass1_perm_aux (r : Releases) (o1 o2 : List (Version × ReleaseType))
    (hperm : o1.Perm o2) :
    ∀ s, (∀ v' t', datesOf s v' t' = datesOf r v' t') →
      (∀ p1 ∈ o1, ∀ p2 ∈ o1, p1.2 = GARelease → p2.2 = GARelease →
        getList r p1.1 GARelease ≠ [] → getList r p2.1 GARelease ≠ [] →
        prevVersion p1.1 = prevVersion p2.1 → p1.1 = p2.1) →
      pass1 s o1 = pass1 s o2 := by
  induction hperm with
  | nil => intro s hs hinj; rfl
  | cons p h ih =>
    intro s hs hinj
    rename_i l1 l2
    cases hb : pass1bucketOn s p.1 p.2 with
    | none => rw [pass1_cons_none s p l1 hb, pass1_cons_none s p l2 hb]
    | some s1 =>
      rw [pass1_cons_some s s1 p l1 hb, pass1_cons_some s s1 p l2 hb]
      have hs1 : ∀ v' t', datesOf s1 v' t' = datesOf r v' t' := fun v' t' =>
        (datesOf_pass1bucketOn s s1 p.1 p.2 hb v' t').trans (hs v' t')
      exact ih s1 hs1 (fun p1 h1 p2 h2 => hinj p1 (List.mem_cons_of_mem _ h1)
        p2 (List.mem_cons_of_mem _ h2))
  | swap x y l =>
    intro s hs hinj
    have hinjxy : x.2 = GARelease → y.2 = GARelease →
        getList r x.1 GARelease ≠ [] → getList r y.1 GARelease ≠ [] →
        prevVersion x.1 = prevVersion y.1 → x.1 = y.1 :=
      hinj x (List.mem_cons_of_mem _ (List.mem_cons_self _ _))
        y (List.mem_cons_self _ _)
    have hbx := pass1bucketOn_eq_writes r x.1 x.2 s hs
    have hby := pass1bucketOn_eq_writes r y.1 y.2 s hs
    cases hwx : writesOf r x.1 x.2 with
    | none =>
      rw [hwx] at hbx
      cases hwy : writesOf r y.1 y.2 with
      | none =>
        rw [hwy] at hby
        rw [pass1_cons_none s y (x :: l) hby, pass1_cons_none s x (y :: l) hbx]
      | some ly =>
        rw [hwy] at hby
        rw [pass1_cons_some s (applyWs s ly) y (x :: l) hby,
          pass1_cons_none s x (y :: l) hbx]
        have hsy : ∀ v' t', datesOf (applyWs s ly) v' t' = datesOf r v' t' :=
          fun v' t' => (datesOf_applyWs ly s v' t').trans (hs v' t')
        have hbx2 := pass1bucketOn_eq_writes r x.1 x.2 (applyWs s ly) hsy
        rw [hwx] at hbx2
        rw [pass1_cons_none (applyWs s ly) x l hbx2]
    | some lx =>
      rw [hwx] at hbx
      cases hwy : writesOf r y.1 y.2 with
      | none =>
        rw [hwy] at hby
        rw [pass1_cons_none s y (x :: l) hby,
          pass1_cons_some s (applyWs s lx) x (y :: l) hbx]
        have hsx : ∀ v' t', datesOf (applyWs s lx) v' t' = datesOf r v' t' :=
          fun v' t' => (datesOf_applyWs lx s v' t').trans (hs v' t')
        have hby2 := pass1bucketOn_eq_writes r y.1 y.2 (applyWs s lx) hsx
        rw [hwy] at hby2
        rw [pass1_cons_none (applyWs s lx) y l hby2]
      | some ly =>
        rw [hwy] at hby
        have hsy : ∀ v' t', datesOf (applyWs s ly) v' t' = datesOf r v' t' :=
          fun v' t' => (datesOf_applyWs ly s v' t').trans (hs v' t')
        have hsx : ∀ v' t', datesOf (applyWs s lx) v' t' = datesOf r v' t' :=
          fun v' t' => (datesOf_applyWs lx s v' t').trans (hs v' t')
        have hbx2 := pass1bucketOn_eq_writes r x.1 x.2 (applyWs s ly) hsy
        have hby2 := pass1bucketOn_eq_writes r y.1 y.2 (applyWs s lx) hsx
        rw [hwx] at hbx2
        rw [hwy] at hby2
        rw [pass1_cons_some s (applyWs s ly) y (x :: l) hby,
          pass1_cons_some (applyWs s ly) (applyWs (applyWs s ly) lx) x l hbx2,
          pass1_cons_some s (applyWs s lx) x (y :: l) hbx,
          pass1_cons_some (applyWs s lx) (applyWs (applyWs s lx) ly) y l hby2,
          applyWs_comm lx ly
            (compat_writesOf r x y lx ly hwx hwy hinjxy) s]
  | trans h12 h23 ih12 ih23 =>
    intro s hs hinj
    rename_i la lb lc
    have hinj2 : ∀ p1 ∈ lb, ∀ p2 ∈ lb, p1.2 = GARelease → p2.2 = GARelease →
        getList r p1.1 GARelease ≠ [] → getList r p2.1 GARelease ≠ [] →
        prevVersion p1.1 = prevVersion p2.1 → p1.1 = p2.1 :=
      fun p1 h1 p2 h2 => hinj p1 (h12.mem_iff.mpr h1) p2 (h12.mem_iff.mpr h2)
    exact (ih12 s hs hinj).trans (ih23 s hs hinj2)

/-- C6 (amended): pass 1 of duration assignment is independent of the
order in which the (version, phase) buckets are iterated — any two
iteration orders that are permutations of one another produce the same
ledger — provided no two distinct version keys with non-empty
GeneralAvailability lists share the same previous version (distinct
spellings such as "1.7" and "1.07" both map their prev-GA closure to
"1.6", making the order observable). -/
theorem C6_pass1_order_independent (r : Releases)
    (o1 o2 : List (Version × ReleaseType)) (hperm : o1.Perm o2)
    (hinj : ∀ p1 ∈ o1, ∀ p2 ∈ o1, p1.2 = GARelease → p2.2 = GARelease →
      getList r p1.1 GARelease ≠ [] → getList r p2.1 GARelease ≠ [] →
      prevVersion p1.1 = prevVersion p2.1 → p1.1 = p2.1) :
    pass1 r o1 = pass1 r o2 :=
  pass1_perm_aux r o1 o2 hperm r (fun _ _ => rfl) hinj

/-- C6 counterexample: the version strings "1.7" and "1.07" are distinct
map keys whose previous version is "1.6" in both cases; iterating their GA
buckets in the two orders closes "1.6"'s GA record with different closing
times, so pass 1 is not order-independent on every ledger. -/
theorem C6_counterexample :
    ([("1.6", GARelease), ("1.07", GARelease), ("1.7", GARelease)] :
        List (Version × ReleaseType)).Perm
      (bucketsOf [("1.6", [(".", [⟨0, 0⟩])]), ("1.7", [(".", [⟨10, 0⟩])]),
        ("1.07", [(".", [⟨20, 0⟩])])]) ∧
    pass1 [("1.6", [(".", [⟨0, 0⟩])]), ("1.7", [(".", [⟨10, 0⟩])]),
        ("1.07", [(".", [⟨20, 0⟩])])]
      (bucketsOf [("1.6", [(".", [⟨0, 0⟩])]), ("1.7", [(".", [⟨10, 0⟩])]),
        ("1.07", [(".", [⟨20, 0⟩])])]) ≠
    pass1 [("1.6", [(".", [⟨0, 0⟩])]), ("1.7", [(".", [⟨10, 0⟩])]),
        ("1.07", [(".", [⟨20, 0⟩])])]
      [("1.6", GARelease), ("1.07", GARelease), ("1.7", GARelease)] := by
  constructor
  · decide
  · decide

/-- C6 witness: a two-version ledger with injective previous versions,
iterated in both orders. -/
theorem C6_pass1_order_independent_witness :
    (([("1.6", GARelease), ("1.7", GARelease)] :
        List (Version × ReleaseType)).Perm
      [("1.7", GARelease), ("1.6", GARelease)]) ∧
    (∀ p1 ∈ ([("1.6", GARelease), ("1.7", GARelease)] :
        List (Version × ReleaseType)),
      ∀ p2 ∈ ([("1.6", GARelease), ("1.7", GARelease)] :
        List (Version × ReleaseType)),
      p1.2 = GARelease → p2.2 = GARelease →
      getList [("1.6", [(".", [⟨0, 0⟩])]), ("1.7", [(".", [⟨10, 0⟩])])]
        p1.1 GARelease ≠ [] →
      getList [("1.6", [(".", [⟨0, 0⟩])]), ("1.7", [(".", [⟨10, 0⟩])])]
        p2.1 GARelease ≠ [] →
      prevVersion p1.1 = prevVersion p2.1 → p1.1 = p2.1) ∧
    pass1 [("1.6", [(".", [⟨0, 0⟩])]), ("1.7", [(".", [⟨10, 0⟩])])]
        [("1.6", GARelease), ("1.7", GARelease)] =
      pass1 [("1.6", [(".", [⟨0, 0⟩])]), ("1.7", [(".", [⟨10, 0⟩])])]
        [("1.7", GARelease), ("1.6", GARelease)] :=
  ⟨by decide, by decide,
    C6_pass1_order_independent
      [("1.6", [(".", [⟨0, 0⟩])]), ("1.7", [(".", [⟨10, 0⟩])])]
      [("1.6", GARelease), ("1.7", GARelease)]
      [("1.7", GARelease), ("1.6", GARelease)]
      (by decide) (by decide)⟩

end GoReleaseCycle
